import Mathlib

/-!
Verification of the CaMKII peak-analysis engine (src/analysis.py).

Shallow embedding conventions:
* Python floats are modelled as rationals (ℚ); the analysed code only adds,
  subtracts, multiplies, divides and compares these quantities, and every
  claim under study is about order/selection logic, not rounding.  NaN/Inf do
  not arise in the rational model; the only "invalid number" the pipeline can
  see is a missing optional field, modelled with Option.
* Python ints are modelled as Int (Python integers are unbounded).  Python
  floor division `//` is Int division (`Int.ediv` floors for the positive
  divisors used here); `int(x)` applied to a float truncates toward zero
  (Rat floor for nonnegative, ceil for negative).
* numpy arrays of peak indices are List Int; pandas Series are List ℚ.
* Python dicts keyed by peak index are insertion-ordered association lists
  (List (Int × Int)); dict removal/insertion helpers mirror dict semantics.
* scipy.signal.find_peaks and scipy.signal.peak_widths are external library
  calls; they enter the model as oracle parameters (a detection result list,
  and a width-estimate function stored in the context).  Everything the
  repository itself computes is translated directly from src/analysis.py.
* The state is modelled for one fixed reading key and, where an operation is
  per-channel, for one channel; the source code touches only the entries of
  the current reading key in each dict, so this projection is faithful.
-/

namespace Camk

attribute [local semireducible] Rat.sub Rat.add Rat.mul Rat.inv

/-- Element access `l[i]` for a float series; callers of the source code keep
indices in bounds, out-of-range access defaults to 0 here. -/
def qget (l : List ℚ) (i : Int) : ℚ := l.getD i.toNat 0

/-- Element access for an index array. -/
def iget (l : List Int) (i : Nat) : Int := l.getD i 0

/-- Python slice `l[a:b]` for nonnegative `a`, `b` (clamps like Python). -/
def pySlice (l : List ℚ) (a b : Int) : List ℚ := (l.drop a.toNat).take (b - a).toNat

/-- Python `int(q)` on a float: truncation toward zero. -/
def pyTrunc (q : ℚ) : Int := if q < 0 then ⌈q⌉ else ⌊q⌋

/-- Python `range(a, b)` as a list of Ints. -/
def pyRange (a b : Int) : List Int := (List.range (b - a).toNat).map (fun k => a + k)

/-- Helper for np.argmin: scan the tail keeping the first strict minimum.
`i` is the index of the next element, `bv`/`best` the current best value and
its index. -/
def argminAux : List ℚ → Nat → ℚ → Nat → Nat
  | [], _, _, best => best
  | x :: xs, i, bv, best =>
      if x < bv then argminAux xs (i + 1) x i else argminAux xs (i + 1) bv best

/-- np.argmin over a float list: index of the first occurrence of the minimum
(0 on the empty list, which the source never hits). -/
def argminIdx : List ℚ → Nat
  | [] => 0
  | x :: xs => argminAux xs 1 x 0

/-- `int(np.argmin(np.abs(time_array - x)))`: snap a clicked/typed time to the
nearest time-axis sample (first one on ties). -/
def argminAbs (time : List ℚ) (x : ℚ) : Int := (argminIdx (time.map (fun t => |t - x|)) : Int)

/-- np.argsort for an index array: the permutation of positions that sorts the
values ascending.  numpy's default sort is unstable, but every call site in the
source sorts arrays with pairwise-distinct entries, where all comparison sorts
agree; a stable insertion sort is used here. -/
def argsort (vals : List Int) : List Nat :=
  (List.range vals.length).insertionSort (fun i j => iget vals i ≤ iget vals j)

/-- Association-list membership test, mirroring `k in d` for a Python dict. -/
def dictContains (m : List (Int × Int)) (k : Int) : Bool := m.any (fun kv => kv.1 = k)

/-- Association-list lookup, mirroring `d.get(k)`. -/
def dictGet? (m : List (Int × Int)) (k : Int) : Option Int :=
  (m.find? (fun kv => kv.1 = k)).map (fun kv => kv.2)

/-- Removal of a key, mirroring `d.pop(k, None)` (dict keys are unique). -/
def dictErase (m : List (Int × Int)) (k : Int) : List (Int × Int) :=
  m.filter (fun kv => kv.1 ≠ k)

/-- Assignment `d[k] = v`: update in place if the key exists, else append
(Python dicts keep insertion order). -/
def dictSet (m : List (Int × Int)) (k v : Int) : List (Int × Int) :=
  if dictContains m k then m.map (fun kv => if kv.1 = k then (k, v) else kv)
  else m ++ [(k, v)]

/-- Peak property record: one dict entry of `rhod/fret_peak_properties`.
`baseline` is Option because detection- and click-produced records carry no
`'baseline'` key (`props.get('baseline')` then yields None). -/
structure PropRec where
  peak_idx : Int
  peak_height : ℚ
  left_base : Int
  right_base : Int
  prominence : ℚ
  width : ℚ
  baseline : Option ℚ
deriving DecidableEq, Repr, Inhabited

/-- Per-channel, per-reading context: the normalized series, the shared time
axis, and the scipy `peak_widths` oracle of `_peak_width_boundary_estimates`
(a deterministic function of the stored series and the peak array; `none`
entries model the except-branch that yields `(None, None)` pairs). -/
structure Ctx where
  series : List ℚ
  time : List ℚ
  widthEst : List Int → List (Option (Int × Int))

/-- Wellformedness the GUI guarantees before edits are possible: a loaded
series is column-aligned with the loaded time axis and nonempty. -/
abbrev Ctx.wf (c : Ctx) : Prop := c.series.length = c.time.length ∧ 0 < c.time.length

/-- Mutable per-channel state for one reading key: the peak index array, the
parallel property list and the manual match-override dict.  `none` models the
reading key being absent from the corresponding dict. -/
structure ChannelState where
  peaks : Option (List Int)
  props : Option (List PropRec)
  ovr : Option (List (Int × Int))
deriving DecidableEq, Repr, Inhabited

/-- Both channels' state for the current reading (`Rhod` = calcium,
`FRET` = sensor). -/
structure Store where
  rhod : ChannelState
  fret : ChannelState
deriving DecidableEq, Repr, Inhabited

/-- Valley estimator `_derive_peak_boundaries`, per-peak body: search the local
minimum between the peak and its neighbours (or a ~2% window). -/
def derivePB1 (series : List ℚ) (peaks : List Int) (i : Nat) : Int × Int :=
  let data := series
  let length : Int := series.length
  let peak_idx := iget peaks i
  let prev_peak : Option Int := if i > 0 then some (iget peaks (i - 1)) else none
  let next_peak : Option Int := if i < peaks.length - 1 then some (iget peaks (i + 1)) else none
  let search_start : Int :=
    match prev_peak with
    | some pv =>
        if pv < peak_idx then pv
        else
          let span :=
            match next_peak with
            | some nx => if nx > peak_idx then max 3 ((nx - peak_idx) / 2) else max 3 (length / 50)
            | none => max 3 (length / 50)
          max 0 (peak_idx - span)
    | none =>
        let span :=
          match next_peak with
          | some nx => if nx > peak_idx then max 3 ((nx - peak_idx) / 2) else max 3 (length / 50)
          | none => max 3 (length / 50)
        max 0 (peak_idx - span)
  let search_end := peak_idx
  let left_base : Int :=
    if search_end ≤ search_start then max 0 (peak_idx - 1)
    else
      let window := pySlice data search_start search_end
      if window.length = 0 then max 0 (peak_idx - 1)
      else search_start + (argminIdx window : Int)
  let search_stop : Int :=
    match next_peak with
    | some nx =>
        if nx > peak_idx then nx
        else
          let padding := if left_base < peak_idx then max 3 (peak_idx - left_base) else max 3 (length / 50)
          min (length - 1) (peak_idx + padding)
    | none =>
        let padding := if left_base < peak_idx then max 3 (peak_idx - left_base) else max 3 (length / 50)
        min (length - 1) (peak_idx + padding)
  let search_start_right := peak_idx + 1
  let right_base : Int :=
    if search_start_right ≥ search_stop then min (length - 1) (peak_idx + 1)
    else
      let window := pySlice data search_start_right (search_stop + 1)
      if window.length = 0 then min (length - 1) (peak_idx + 1)
      else search_start_right + (argminIdx window : Int)
  let right_base := if right_base ≤ peak_idx then min (length - 1) (peak_idx + 1) else right_base
  let left_base := if left_base ≥ peak_idx then max 0 (peak_idx - 1) else left_base
  (left_base, right_base)

/-- `_derive_peak_boundaries`: valley-estimator bounds, one pair per peak.
`int(length * 0.02)` is `length / 50` exactly: for multiples of 50 the float
product rounds to the exact integer, otherwise the fractional part dwarfs the
representation error of 0.02. -/
def derivePeakBoundaries (series : List ℚ) (peaks : List Int) : List (Int × Int) :=
  if peaks.length = 0 then []
  else (List.range peaks.length).map (fun i => derivePB1 series peaks i)

/-- Tail margin `max(5, int(np.ceil(0.02 * length)))`; the float ceiling of
`0.02 * length` equals the exact rational ceiling `⌈length / 50⌉`. -/
def tailMargin (L : Int) : Int := max 5 ((L + 49) / 50)

/-- Per-peak reconciliation step of `_select_hybrid_boundaries`: select
width-estimator bounds, else valley bounds, else reference (prior/scipy)
bounds, else `peak_idx ± 1`; then clamp against neighbour midpoints and the
tail guard and correct ordering violations.  Python floor division `//` by 2
is Int division here (`Int.ediv` floors for a positive divisor). -/
def reconcileBoundary (L : Int) (prevP nextP : Option Int) (p : Int)
    (wb vb rb : Option (Int × Int)) : Int × Int :=
  let left0 : Option Int := ((wb.map Prod.fst).orElse (fun _ => vb.map Prod.fst)).orElse
    (fun _ => rb.map Prod.fst)
  let right0 : Option Int := ((wb.map Prod.snd).orElse (fun _ => vb.map Prod.snd)).orElse
    (fun _ => rb.map Prod.snd)
  let left1 : Int := max 0 (left0.getD (p - 1))
  let right1 : Int := min (L - 1) (right0.getD (p + 1))
  let left2 : Int :=
    match prevP with
    | some pv => max (pv + 1) (min left1 (pv + max 1 ((p - pv) / 2)))
    | none => max 0 left1
  let tailGuard : Int := max 0 (L - tailMargin L)
  let right2 : Int :=
    match nextP with
    | some nx => min (nx - 1) (min right1 (p + max 1 ((nx - p) / 2)))
    | none => min right1 tailGuard
  let left3 : Int := if left2 ≥ p then max (p - 1) 0 else left2
  let right3 : Int := if right2 ≤ p then min (p + 1) tailGuard else right2
  let right4 : Int := if right3 ≤ left3 then min (L - 1) (left3 + 1) else right3
  (left3, right4)

/-- `_select_hybrid_boundaries`: valley bounds are computed from the series,
width bounds come from the scipy oracle (`widthBounds`), reference bounds from
the prior property records. -/
def selectHybridBoundaries (series : List ℚ) (peaks : List Int)
    (referenceProps : List PropRec) (widthBounds : List (Option (Int × Int))) :
    List (Int × Int) :=
  if peaks.length = 0 then []
  else
    let L : Int := series.length
    let valley := derivePeakBoundaries series peaks
    (List.range peaks.length).map (fun i =>
      let p := iget peaks i
      let prevP : Option Int := if i > 0 then some (iget peaks (i - 1)) else none
      let nextP : Option Int := if i < peaks.length - 1 then some (iget peaks (i + 1)) else none
      let wb := widthBounds.getD i none
      let vb := valley.get? i
      let rb := (referenceProps.get? i).map (fun pr => (pr.left_base, pr.right_base))
      reconcileBoundary L prevP nextP p wb vb rb)

/-- Selection rule of the (amended) C4 claim for one side: the
width-estimator value when available, else the valley value, else the
prior/scipy value, else the default `peak_idx ∓ 1`. -/
def specSelect (w v r : Option Int) (dflt : Int) : Int :=
  match w, v, r with
  | some a, _, _ => a
  | none, some a, _ => a
  | none, none, some a => a
  | none, none, none => dflt

/-- Left clamp of the (amended) C4 claim: not past the floor-midpoint to the
previous peak and at least `prev_peak + 1`; without a previous peak only the
clip at 0 applies. -/
def specClampLeft (p : Int) (prevP : Option Int) (l : Int) : Int :=
  match prevP with
  | some pv => max (pv + 1) (min l (pv + max 1 ((p - pv) / 2)))
  | none => max 0 l

/-- Right clamp of the (amended) C4 claim: not past the floor-midpoint to the
next peak and at most `next_peak - 1`; for the last peak, at most the tail
guard `max(0, length - max(5, ceil(0.02*length)))`. -/
def specClampRight (L p : Int) (nextP : Option Int) (r : Int) : Int :=
  match nextP with
  | some nx => min (nx - 1) (min r (p + max 1 ((nx - p) / 2)))
  | none => min r (max 0 (L - max 5 ((L + 49) / 50)))

/-- Ordering enforcement of the (amended) C4 claim: a left bound at or past
the peak is pulled to `max(peak-1, 0)`, a right bound at or before the peak to
`min(peak+1, tail_guard)` (which can stay at or before the peak), and a right
bound at or before the left one to `min(length-1, left+1)`. -/
def specEnforce (L p : Int) (l r : Int) : Int × Int :=
  let tg := max 0 (L - max 5 ((L + 49) / 50))
  let l2 := if p ≤ l then max (p - 1) 0 else l
  let r2 := if r ≤ p then min (p + 1) tg else r
  (l2, if r2 ≤ l2 then min (L - 1) (l2 + 1) else r2)

/-- Per-peak boundary reconciliation as the amended C4 claim words it:
select per side, clip into the trace, clamp against the neighbours and the
tail guard, then enforce ordering. -/
def reconcileSpec (L : Int) (prevP nextP : Option Int) (p : Int)
    (wb vb rb : Option (Int × Int)) : Int × Int :=
  let l0 := specSelect (wb.map Prod.fst) (vb.map Prod.fst) (rb.map Prod.fst) (p - 1)
  let r0 := specSelect (wb.map Prod.snd) (vb.map Prod.snd) (rb.map Prod.snd) (p + 1)
  specEnforce L p (specClampLeft p prevP (max 0 l0)) (specClampRight L p nextP (min (L - 1) r0))

/-- Counterexample fixture for C4: a flat 300-sample trace. -/
def cSeries : List ℚ := List.replicate 300 0

/-- `_build_single_peak_property` on the branch where both bounds are supplied
(the only branch any modelled call site reaches: `_rebuild_peak_properties`
always passes explicit hybrid bounds).  The empty-series early return is kept. -/
def buildSinglePeakProperty (series : List ℚ) (p lb rb : Int) : PropRec :=
  let L : Int := series.length
  if L = 0 then ⟨p, 0, p, p, 0, 1, some 0⟩
  else
    let left : Int := max 0 (min lb (p - 1))
    let right : Int := min (L - 1) (max rb (p + 1))
    let pv := qget series p
    let lv := if 0 ≤ left ∧ left < L then qget series left else pv
    let rv := if 0 ≤ right ∧ right < L then qget series right else pv
    let baseline := (lv + rv) / 2
    ⟨p, pv, left, right, max 0 (pv - baseline), ((max 1 (right - left) : Int) : ℚ), some baseline⟩

/-- `_clear_manual_match_override` for the current reading: drop the peak's
override and remove the reading entry when the dict becomes empty. -/
def clearManualOverride (ovr : Option (List (Int × Int))) (peak : Int) :
    Option (List (Int × Int)) :=
  match ovr with
  | none => none
  | some m =>
      if dictContains m peak then
        let m2 := dictErase m peak
        if m2.isEmpty then none else some m2
      else some m

/-- `_rebuild_peak_properties`: re-sort the index array and rebuild every
property record from the hybrid boundary resolver (prior records are passed
through as the reference estimator). -/
def rebuildPeakProperties (ctx : Ctx) (s : ChannelState) : ChannelState :=
  match s.peaks with
  | none => s
  | some pk =>
      if pk.isEmpty then { s with props := none }
      else
        let ord := argsort pk
        let sortedPk := ord.map (iget pk)
        let existing := s.props.getD []
        let bounds := selectHybridBoundaries ctx.series sortedPk existing (ctx.widthEst sortedPk)
        let newProps := (sortedPk.zip bounds).map
          (fun pb => buildSinglePeakProperty ctx.series pb.1 pb.2.1 pb.2.2)
        { peaks := some sortedPk, props := some newProps, ovr := s.ovr }

/-- `_add_peak_via_click`: snap the click to the nearest time sample; no-op on
an existing index, otherwise append a hard-coded ±20-sample record and re-sort
both parallel arrays by the same argsort permutation. -/
def addPeakViaClick (ctx : Ctx) (s : ChannelState) (x : ℚ) : ChannelState :=
  let clicked : Int := argminAbs ctx.time x
  let pk := s.peaks.getD []
  let pr := s.props.getD []
  if clicked ∈ pk then s
  else
    let L : Int := ctx.series.length
    let pv := qget ctx.series clicked
    let lb := max 0 (clicked - 20)
    let rb := min (L - 1) (clicked + 20)
    let newPk := pk ++ [clicked]
    let newPr := pr ++ [⟨clicked, pv, lb, rb, pv - 1, 10, none⟩]
    let ord := argsort newPk
    { peaks := some (ord.map (iget newPk)),
      props := some (ord.map (fun i => newPr.getD i default)),
      ovr := s.ovr }

/-- `_delete_peak`: no-op when the reading or the index is absent; otherwise
remove the index and the property record at the same position, drop the whole
reading entry when the array empties, and purge the manual override. -/
def deletePeak (s : ChannelState) (peak : Int) : ChannelState :=
  match s.peaks with
  | none => s
  | some pk =>
      match pk.findIdx? (fun v => v = peak) with
      | none => s
      | some i =>
          let pk2 := pk.eraseIdx i
          let pr2 : Option (List PropRec) :=
            match s.props with
            | none => none
            | some pr => if i < pr.length then some (pr.eraseIdx i) else some pr
          if pk2.isEmpty then ⟨none, none, clearManualOverride s.ovr peak⟩
          else ⟨some pk2, pr2, clearManualOverride s.ovr peak⟩

/-- `_commit_time_value` (move a peak to a typed time): snap, no-op when
snapping onto itself or when the peak is missing, reject when a different peak
holds the target index, else replace the index, re-sort, rebuild all
boundaries, and carry the manual override from the old index to the new one. -/
def commitTimeValue (ctx : Ctx) (s : ChannelState) (old : Int) (x : ℚ) : ChannelState :=
  if ctx.time.length = 0 then s
  else
    let nearest : Int := argminAbs ctx.time x
    match s.peaks with
    | none => s
    | some pk =>
        if pk.isEmpty then s
        else
          match pk.findIdx? (fun v => v = old) with
          | none => s
          | some i =>
              if nearest = old then s
              else if nearest ∈ pk then s
              else
                let newPk := pk.set i nearest
                let ord := argsort newPk
                let sortedPk := ord.map (iget newPk)
                let s1 := rebuildPeakProperties ctx ⟨some sortedPk, s.props, s.ovr⟩
                let ovr2 : Option (List (Int × Int)) :=
                  match s1.ovr with
                  | none => none
                  | some m =>
                      if ¬ m.isEmpty ∧ dictContains m old then
                        some (dictSet (dictErase m old) nearest ((dictGet? m old).getD 0))
                      else some m
                { s1 with ovr := ovr2 }

/-- One manual edit of the peak store (the operations of claim C2). -/
inductive EditOp where
  | add (x : ℚ)
  | del (peak : Int)
  | move (old : Int) (x : ℚ)

/-- Apply one edit. -/
def stepOp (ctx : Ctx) (s : ChannelState) : EditOp → ChannelState
  | .add x => addPeakViaClick ctx s x
  | .del peak => deletePeak s peak
  | .move old x => commitTimeValue ctx s old x

/-- Apply a sequence of edits. -/
def runOps (ctx : Ctx) (s : ChannelState) (ops : List EditOp) : ChannelState :=
  ops.foldl (stepOp ctx) s

/-- Store invariant of claims C1/C2: peak and property entries exist together,
the index array is strictly ascending (hence duplicate-free), the property
list is positionally aligned with it, and all indices are in range. -/
abbrev StoreInv (ctx : Ctx) (s : ChannelState) : Prop :=
  (s.peaks = none ↔ s.props = none) ∧
  List.Chain' (· < ·) (s.peaks.getD []) ∧
  (s.props.getD []).map (fun pr => pr.peak_idx) = s.peaks.getD [] ∧
  ∀ p ∈ s.peaks.getD [], 0 ≤ p ∧ p < (ctx.series.length : Int)

/-! ### Peak pairing (`_match_peak_pairs`)

A metric enters the pairing logic only through its `peak_idx` (the time is
looked up as `time_data.iloc[peak_idx]`), so metric records are represented by
their peak indices here. -/

/-- Time of a metric: `float(self.time_data.iloc[m['peak_idx']])`. -/
def timeAt (time : List ℚ) (i : Int) : ℚ := qget time i

/-- Python `sorted(metrics, key=time)`: a stable ascending sort by time
(`List.insertionSort` with a ≤-key relation is stable in the same sense as
timsort). -/
def sortByTime (time : List ℚ) (ms : List Int) : List Int :=
  ms.insertionSort (fun a b => timeAt time a ≤ timeAt time b)

/-- One pairing record: calcium metric, sensor metric, delay. -/
structure PairRec where
  rhod : Int
  fret : Int
  delay : ℚ
deriving DecidableEq, Repr

/-- Inner scan of `_match_peak_pairs`: walk the sorted sensor metrics, skip
used ones and ones not strictly later than the calcium time, keep the first
strict improvement of the delay. -/
def pickBest (time : List ℚ) (rt : ℚ) (used : List Int) (fs : List Int) :
    Option (Int × ℚ) :=
  fs.foldl
    (fun best f =>
      if f ∈ used then best
      else
        let ft := timeAt time f
        if ft ≤ rt then best
        else
          let d := ft - rt
          match best with
          | none => some (f, d)
          | some bd => if d < bd.2 then some (f, d) else best)
    none

/-- `_match_peak_pairs`: greedy forward matching of calcium peaks to sensor
peaks.  The `used_fret` set is modelled as the list of already paired sensor
indices. -/
def matchPeakPairs (time : List ℚ) (rhod fret : List Int) : List PairRec :=
  if rhod.isEmpty ∨ fret.isEmpty then []
  else
    let rs := sortByTime time rhod
    let fs := sortByTime time fret
    (rs.foldl
      (fun acc r =>
        match pickBest time (timeAt time r) acc.1 fs with
        | none => acc
        | some fd => (acc.1 ++ [fd.1], acc.2 ++ [⟨r, fd.1, fd.2⟩]))
      (([] : List Int), ([] : List PairRec))).2

/-- First minimizer of a key over a list, ties resolved to the earliest
element — the selection rule the specification describes for the sensor
candidate. -/
def firstMinBy (key : Int → ℚ) : List Int → Option Int
  | [] => none
  | x :: xs =>
      match firstMinBy key xs with
      | none => some x
      | some y => if key y < key x then some y else some x

/-- Pairing algorithm as the specification words it: sort both lists by time;
for each calcium peak in time order, take the unused sensor peaks with
strictly greater time, choose the one of minimum delay (first encountered on
ties), and emit a record; otherwise leave the calcium peak unpaired. -/
def pairSpec (time : List ℚ) (rhod fret : List Int) : List PairRec :=
  if rhod.isEmpty ∨ fret.isEmpty then []
  else
    let rs := sortByTime time rhod
    let fs := sortByTime time fret
    (rs.foldl
      (fun acc r =>
        let rt := timeAt time r
        let candidates := fs.filter (fun f => f ∉ acc.1 ∧ rt < timeAt time f)
        match firstMinBy (fun f => timeAt time f - rt) candidates with
        | none => acc
        | some f => (acc.1 ++ [f], acc.2 ++ [⟨r, f, timeAt time f - rt⟩]))
      (([] : List Int), ([] : List PairRec))).2

/-! ### Per-peak metrics (`_collect_peak_metrics`, `_rise_decay_times`) -/

/-- Derived metric record (one row of the analysis tables). -/
structure MetricRec where
  ordinal : Nat
  peak_idx : Int
  left_idx : Int
  right_idx : Int
  baseline : ℚ
  peak_value : ℚ
  amplitude : ℚ
  auc : ℚ
  rise_time : ℚ
  decay_time : ℚ
  width : ℚ
deriving DecidableEq, Repr, Inhabited

/-- Python `min` over a nonempty float list (the default is never used by the
source, which guards emptiness). -/
def minListD (l : List ℚ) (d : ℚ) : ℚ :=
  match l with
  | [] => d
  | x :: xs => xs.foldl min x

/-- np.trapezoid: trapezoidal integral of samples `ys` against abscissae `xs`. -/
def trapz : List ℚ → List ℚ → ℚ
  | y1 :: y2 :: ys, x1 :: x2 :: xs => (x2 - x1) * (y1 + y2) / 2 + trapz (y2 :: ys) (x2 :: xs)
  | _, _ => 0

/-- `_rise_decay_times`: scan forward from the left bound for the first sample
at or above the 10%-of-amplitude threshold, and forward from the peak for the
first sample at or below it; both times floored at 0; both 0 when the
amplitude is nonpositive. -/
def riseDecayTimes (series time : List ℚ) (p l r : Int) (baseline : ℚ) : ℚ × ℚ :=
  let pv := qget series p
  let amplitude := pv - baseline
  if amplitude ≤ 0 then (0, 0)
  else
    let threshold := baseline + (1 / 10) * amplitude
    let riseIdx := ((pyRange l (p + 1)).find? (fun i => threshold ≤ qget series i)).getD l
    let decayIdx := ((pyRange p (r + 1)).find? (fun i => qget series i ≤ threshold)).getD r
    (max (qget time p - qget time riseIdx) 0, max (qget time decayIdx - qget time p) 0)

/-- `_collect_peak_metrics`: clamp the stored bounds into range, take the
baseline as the minimum of the available candidates (explicit baseline when
the record has one, trace value at each bound) with the global minimum as the
fallback, and derive amplitude, AUC, rise/decay times and width. -/
def collectPeakMetrics (series time : List ℚ) (props : List PropRec) : List MetricRec :=
  (List.range props.length).map (fun k =>
    let pr := props.getD k default
    let p := pr.peak_idx
    let l := max 0 pr.left_base
    let r := min ((series.length : Int) - 1) pr.right_base
    let cands : List ℚ :=
      (match pr.baseline with | some b => [b] | none => []) ++ [qget series l, qget series r]
    let baseline := minListD cands (minListD series 0)
    let pv := qget series p
    let amplitude := max 0 (pv - baseline)
    let ts := pySlice time l (r + 1)
    let ss := pySlice series l (r + 1)
    let auc := max 0 (trapz (ss.map (fun v => v - baseline)) ts)
    let rd := riseDecayTimes series time p l r baseline
    ⟨k + 1, p, l, r, baseline, pv, amplitude, auc, rd.1, rd.2,
      qget time r - qget time l⟩)

/-! ### Detection parameter validation and the detection run -/

/-- Outcome of reading one tkinter entry: empty after strip, non-numeric text,
or a numeric literal with value `q`. -/
inductive FieldInput where
  | missing
  | invalid
  | num (q : ℚ)
deriving DecidableEq, Repr

/-- The four detection entries of one channel. -/
structure DetectFields where
  height : FieldInput
  prominence : FieldInput
  distance : FieldInput
  width : FieldInput
deriving DecidableEq, Repr

/-- Validated detection parameters. -/
structure DetectParams where
  height : ℚ
  prominence : ℚ
  distance : Int
  width : Int
deriving DecidableEq, Repr

/-- Field errors of `parse_float` inside `_get_detection_params`. -/
def parseFloatErrors (label : String) : FieldInput → List String
  | .missing => [label ++ " is required"]
  | .invalid => [label ++ " must be numeric"]
  | .num _ => []

/-- Field errors of `parse_positive_int`: missing and non-numeric as for
floats, and the truncated integer must be positive. -/
def parsePosIntErrors (label : String) : FieldInput → List String
  | .missing => [label ++ " is required"]
  | .invalid => [label ++ " must be numeric"]
  | .num q => if pyTrunc q ≤ 0 then [label ++ " must be greater than 0"] else []

/-- The field-level error list `_get_detection_params` accumulates, in source
order: height, prominence, min distance, min width. -/
def detectionErrors (f : DetectFields) : List String :=
  parseFloatErrors "height" f.height ++ parseFloatErrors "prominence" f.prominence ++
    parsePosIntErrors "min distance" f.distance ++ parsePosIntErrors "min width" f.width

/-- `_get_detection_params`: None when any field error fires, otherwise the
parsed parameters with height/prominence clamped to ≥ 0 and distance/width
truncated to int. -/
def getDetectionParams (f : DetectFields) : Option DetectParams :=
  if detectionErrors f = [] then
    match f.height, f.prominence, f.distance, f.width with
    | .num h, .num pq, .num d, .num w => some ⟨max h 0, max pq 0, pyTrunc d, pyTrunc w⟩
    | _, _, _, _ => none
  else none

/-- One peak as returned by the scipy `find_peaks` oracle, with the seed
properties `detect_peaks` copies out of it. -/
structure DetectSeed where
  peak_idx : Int
  peak_height : ℚ
  left_base : Int
  right_base : Int
  prominence : ℚ
  width : ℚ
deriving DecidableEq, Repr

/-- Seed property record stored by `detect_peaks` (no `'baseline'` key). -/
def seedToProp (d : DetectSeed) : PropRec :=
  ⟨d.peak_idx, d.peak_height, d.left_base, d.right_base, d.prominence, d.width, none⟩

/-- Overwrite the left/right bases of each property record with the hybrid
bounds, as the zip loop at the end of `detect_peaks` does. -/
def applyBounds (props : List PropRec) (bounds : List (Int × Int)) : List PropRec :=
  props.zipWith (fun pr b => { pr with left_base := b.1, right_base := b.2 }) bounds

/-- `detect_peaks` for the current reading, with both channels loaded (the
early data guards return before any mutation and are not modelled).  The
source first purges the reading's manual overrides on both channels, then
validates the parameters — an invalid parameter set therefore returns with the
overrides already cleared.  On the valid path, `find_peaks` is the oracle and
the stored sets/properties are replaced wholesale. -/
def detectPeaks (ctxR ctxF : Ctx) (s : Store) (rf ff : DetectFields)
    (oracleR oracleF : DetectParams → List DetectSeed) : Store :=
  let s1 : Store := ⟨{ s.rhod with ovr := none }, { s.fret with ovr := none }⟩
  match getDetectionParams rf, getDetectionParams ff with
  | some rp, some fp =>
      let rSeeds := oracleR rp
      let fSeeds := oracleF fp
      let rPk := rSeeds.map (fun d => d.peak_idx)
      let fPk := fSeeds.map (fun d => d.peak_idx)
      let rProps := rSeeds.map seedToProp
      let fProps := fSeeds.map seedToProp
      let rProps2 := applyBounds rProps
        (selectHybridBoundaries ctxR.series rPk rProps (ctxR.widthEst rPk))
      let fProps2 := applyBounds fProps
        (selectHybridBoundaries ctxF.series fPk fProps (ctxF.widthEst fPk))
      ⟨⟨some rPk, some rProps2, none⟩, ⟨some fPk, some fProps2, none⟩⟩
  | _, _ => s1

/-- `clear_peaks`: drop the reading's peak sets, property lists and manual
overrides on both channels. -/
def clearPeaks (_s : Store) : Store :=
  ⟨⟨none, none, none⟩, ⟨none, none, none⟩⟩

/-! ### Display match-id resolution (`_resolve_match_map`) -/

/-- `_resolve_match_map` for one channel and the current reading: prune stored
overrides whose peak index is absent from the metric list (removing the
reading entry when nothing survives — a persistent side effect on the store),
then resolve each metric to its override, else its automatic id, else blank
(`none`). -/
def resolveMatchMap (ovr : Option (List (Int × Int))) (metricIdxs : List Int)
    (autoMap : List (Int × Int)) :
    Option (List (Int × Int)) × List (Int × Option Int) :=
  let manualForReading := ovr.getD []
  let cleaned := manualForReading.filter (fun kv => kv.1 ∈ metricIdxs)
  let newOvr : Option (List (Int × Int)) := if cleaned.isEmpty then none else some cleaned
  let resolved := metricIdxs.map (fun i =>
    match dictGet? cleaned i with
    | some v => (i, some v)
    | none =>
        match dictGet? autoMap i with
        | some v => (i, some v)
        | none => (i, none))
  (newOvr, resolved)

/-- Boundary wellformedness a record can satisfy after a click-add or a full
rebuild: bounds bracket the peak inside the trace, strictly except where the
peak sits on the first or last sample (where a strict bound cannot exist). -/
abbrev RecBoundsEdge (L : Int) (r : PropRec) : Prop :=
  0 ≤ r.left_base ∧ r.left_base ≤ r.peak_idx ∧ r.peak_idx ≤ r.right_base ∧
    r.right_base ≤ L - 1 ∧ (0 < r.peak_idx → r.left_base < r.peak_idx) ∧
    (r.peak_idx < L - 1 → r.peak_idx < r.right_base)

/-- Boundary wellformedness after a detection run: the left bound is strictly
inside, the right bound stays in range and to the right of the left bound, but
the tail-margin clamp may pull it to or below the peak. -/
abbrev RecBoundsDetect (L : Int) (r : PropRec) : Prop :=
  0 ≤ r.left_base ∧ r.left_base < r.peak_idx ∧ r.left_base < r.right_base ∧
    r.right_base ≤ L - 1

/-- Witness fixture: the specification's scenario trace
`[1,1,1,1,1,1,2,3,5,3,2,1,1,1]`. -/
def wSeries : List ℚ := [1, 1, 1, 1, 1, 1, 2, 3, 5, 3, 2, 1, 1, 1]

/-- Witness fixture: a time axis in minutes aligned with `wSeries`. -/
def wTime : List ℚ := [0, 1, 2, 3, 4, 5, 6, 7, 8, 9, 10, 11, 12, 13]

/-- Witness fixture context; the width oracle returns no estimates (the
except-branch of `_peak_width_boundary_estimates`). -/
def wCtx : Ctx := ⟨wSeries, wTime, fun _ => []⟩

/-- A channel state with no entry for the reading. -/
def emptyChannel : ChannelState := ⟨none, none, none⟩

/-- Witness fixture: a store with no peaks for the reading. -/
def wStore : Store := ⟨emptyChannel, emptyChannel⟩

/-- Witness fixture: valid detection entries. -/
def wFields : DetectFields := ⟨.num 1, .num 0, .num 2, .num 1⟩

/-- Witness fixture: the `find_peaks` oracle reporting the single peak of the
scenario trace at index 8 with its seed bases. -/
def wOracle : DetectParams → List DetectSeed := fun _ => [⟨8, 5, 6, 11, 4, 2⟩]

/-! ### Supporting lemmas -/

theorem range_map_getD {α : Type} (l : List α) (d : α) :
    (List.range l.length).map (fun i => l.getD i d) = l := by
  induction l with
  | nil => rfl
  | cons a t ih =>
      rw [List.length_cons, List.range_succ_eq_map, List.map_cons, List.map_map]
      refine congrArg₂ (· :: ·) rfl ?_
      have hf : ((fun i => (a :: t).getD i d) ∘ Nat.succ) = (fun i => t.getD i d) := by
        funext i
        simp [List.getD_cons_succ]
      rw [hf]
      exact ih

theorem argsort_perm (vals : List Int) : (argsort vals).Perm (List.range vals.length) :=
  List.perm_insertionSort _ _

theorem mem_argsort_lt {vals : List Int} {i : Nat} (h : i ∈ argsort vals) :
    i < vals.length :=
  List.mem_range.mp (((argsort_perm vals).mem_iff).mp h)

theorem argsort_map_perm (vals : List Int) :
    ((argsort vals).map (iget vals)).Perm vals := by
  have h := (argsort_perm vals).map (iget vals)
  have h2 : (List.range vals.length).map (iget vals) = vals := range_map_getD vals 0
  rw [h2] at h
  exact h

theorem argsort_sorted (vals : List Int) :
    List.Pairwise (fun i j => iget vals i ≤ iget vals j) (argsort vals) := by
  haveI : IsTotal Nat (fun i j => iget vals i ≤ iget vals j) := ⟨fun a b => le_total _ _⟩
  haveI : IsTrans Nat (fun i j => iget vals i ≤ iget vals j) :=
    ⟨fun a b c hab hbc => le_trans hab hbc⟩
  exact List.sorted_insertionSort _ _

theorem chain_lt_of_argsort {vals : List Int} (h : vals.Nodup) :
    List.Chain' (· < ·) ((argsort vals).map (iget vals)) := by
  have hp : List.Pairwise (· ≤ ·) ((argsort vals).map (iget vals)) :=
    (List.pairwise_map).mpr (argsort_sorted vals)
  have hn : ((argsort vals).map (iget vals)).Nodup :=
    ((argsort_map_perm vals).nodup_iff).mpr h
  have hlt : List.Pairwise (· < ·) ((argsort vals).map (iget vals)) :=
    (hp.and hn).imp (fun hx => lt_of_le_of_ne hx.1 hx.2)
  exact List.chain'_iff_pairwise.mpr hlt

theorem nodup_of_chain_lt {vals : List Int} (h : List.Chain' (· < ·) vals) :
    vals.Nodup :=
  (List.chain'_iff_pairwise.mp h).imp (fun hx => ne_of_lt hx)

theorem aligned_getD {pr : List PropRec} {pk : List Int}
    (hal : pr.map (fun r => r.peak_idx) = pk) {i : Nat} (hi : i < pk.length) :
    (pr.getD i default).peak_idx = iget pk i := by
  subst hal
  have hi' : i < pr.length := by simpa using hi
  rw [iget, List.getD_eq_getElem _ _ hi', List.getD_eq_getElem _ _ (by simpa using hi),
    List.getElem_map]

theorem argsort_align {pk : List Int} {pr : List PropRec}
    (hal : pr.map (fun r => r.peak_idx) = pk) :
    ((argsort pk).map (fun i => pr.getD i default)).map (fun r => r.peak_idx)
      = (argsort pk).map (iget pk) := by
  rw [List.map_map]
  refine List.map_congr_left ?_
  intro i hi
  exact aligned_getD hal (mem_argsort_lt hi)

theorem nodup_set {v : Int} :
    ∀ {l : List Int} (i : Nat), l.Nodup → v ∉ l → (l.set i v).Nodup := by
  intro l
  induction l with
  | nil => intro i _ _; simp
  | cons a t ih =>
      intro i hnd hv
      cases i with
      | zero =>
          rw [List.set_cons_zero]
          exact List.nodup_cons.mpr
            ⟨fun hvt => hv (List.mem_cons_of_mem a hvt), (List.nodup_cons.mp hnd).2⟩
      | succ j =>
          rw [List.set_cons_succ]
          refine List.nodup_cons.mpr ⟨?_, ih j (List.nodup_cons.mp hnd).2
            (fun hvt => hv (List.mem_cons_of_mem a hvt))⟩
          intro hmem
          rcases List.mem_or_eq_of_mem_set hmem with h1 | h2
          · exact (List.nodup_cons.mp hnd).1 h1
          · exact hv (h2 ▸ List.mem_cons_self a t)

theorem map_eraseIdx {α β : Type} (f : α → β) :
    ∀ (l : List α) (i : Nat), (l.eraseIdx i).map f = (l.map f).eraseIdx i
  | [], _ => rfl
  | _ :: _, 0 => rfl
  | a :: t, (i + 1) => by
      rw [List.eraseIdx_cons_succ, List.map_cons, List.map_cons, List.eraseIdx_cons_succ,
        map_eraseIdx f t i]

theorem argminAux_cases :
    ∀ (xs : List ℚ) (i : Nat) (bv : ℚ) (best : Nat),
      argminAux xs i bv best = best ∨
        (i ≤ argminAux xs i bv best ∧ argminAux xs i bv best < i + xs.length) := by
  intro xs
  induction xs with
  | nil => intro i bv best; exact Or.inl rfl
  | cons x t ih =>
      intro i bv best
      rw [argminAux]
      by_cases hx : x < bv
      · rw [if_pos hx]
        rcases ih (i + 1) x i with h | h
        · refine Or.inr ⟨?_, ?_⟩
          · omega
          · rw [h]; simp only [List.length_cons]; omega
        · refine Or.inr ⟨?_, ?_⟩
          · omega
          · simp only [List.length_cons]; omega
      · rw [if_neg hx]
        rcases ih (i + 1) bv best with h | h
        · exact Or.inl h
        · refine Or.inr ⟨?_, ?_⟩
          · omega
          · simp only [List.length_cons]; omega

theorem argminIdx_lt_length {l : List ℚ} (h : l ≠ []) : argminIdx l < l.length := by
  cases l with
  | nil => exact absurd rfl h
  | cons x t =>
      rw [argminIdx]
      rcases argminAux_cases t 1 x 0 with h1 | h1
      · rw [h1]; simp
      · simp only [List.length_cons]; omega

theorem argminAbs_range {time : List ℚ} (h : time ≠ []) (x : ℚ) :
    0 ≤ argminAbs time x ∧ argminAbs time x < (time.length : Int) := by
  constructor
  · exact Int.ofNat_nonneg _
  · rw [argminAbs]
    have hne : time.map (fun t => |t - x|) ≠ [] := by
      intro hc; exact h (List.map_eq_nil_iff.mp hc)
    have := argminIdx_lt_length hne
    rw [List.length_map] at this
    exact_mod_cast this

theorem selectHybrid_length (series : List ℚ) (peaks : List Int)
    (referenceProps : List PropRec) (widthBounds : List (Option (Int × Int))) :
    (selectHybridBoundaries series peaks referenceProps widthBounds).length = peaks.length := by
  rw [selectHybridBoundaries]
  by_cases h : peaks.length = 0
  · rw [if_pos h, h]; rfl
  · rw [if_neg h]
    simp

theorem buildSingle_peak_idx (series : List ℚ) (p lb rb : Int) :
    (buildSinglePeakProperty series p lb rb).peak_idx = p := by
  rw [buildSinglePeakProperty]
  by_cases h : (series.length : Int) = 0
  · rw [if_pos h]
  · rw [if_neg h]

theorem argsort_length (vals : List Int) : (argsort vals).length = vals.length := by
  rw [argsort, List.length_insertionSort, List.length_range]

theorem inv_core {ctx : Ctx} {newPk : List Int} {newPr : List PropRec}
    {ov : Option (List (Int × Int))} (hnd : newPk.Nodup)
    (hal : newPr.map (fun r => r.peak_idx) = newPk)
    (hrange : ∀ p ∈ newPk, 0 ≤ p ∧ p < (ctx.series.length : Int)) :
    StoreInv ctx ⟨some ((argsort newPk).map (iget newPk)),
      some ((argsort newPk).map (fun i => newPr.getD i default)), ov⟩ := by
  refine ⟨by simp, ?_, ?_, ?_⟩
  · simpa using chain_lt_of_argsort hnd
  · simpa using argsort_align hal
  · intro p hp
    simp only [Option.getD_some] at hp
    exact hrange p (((argsort_map_perm newPk).mem_iff).mp hp)

theorem storeInv_add {ctx : Ctx} {s : ChannelState} {x : ℚ}
    (hwf : Ctx.wf ctx) (h : StoreInv ctx s) :
    StoreInv ctx (addPeakViaClick ctx s x) := by
  obtain ⟨hpair, hchain, halign, hrange⟩ := h
  rw [addPeakViaClick]
  by_cases hmem : argminAbs ctx.time x ∈ s.peaks.getD []
  · simp only [if_pos hmem]
    exact ⟨hpair, hchain, halign, hrange⟩
  · simp only [if_neg hmem]
    have htne : ctx.time ≠ [] := by
      intro hc
      have h2 := hwf.2
      rw [hc] at h2
      simp at h2
    have hclick := argminAbs_range htne x
    refine inv_core ?_ ?_ ?_
    · rw [List.nodup_append]
      exact ⟨nodup_of_chain_lt hchain, List.nodup_singleton _,
        fun a ha hb => hmem ((List.mem_singleton.mp hb) ▸ ha)⟩
    · rw [List.map_append, halign]
      rfl
    · intro p hp
      rcases List.mem_append.mp hp with h1 | h2
      · exact hrange p h1
      · rw [List.mem_singleton.mp h2]
        refine ⟨hclick.1, ?_⟩
        rw [hwf.1]
        exact hclick.2

theorem storeInv_delete {ctx : Ctx} {s : ChannelState} {peak : Int}
    (h : StoreInv ctx s) : StoreInv ctx (deletePeak s peak) := by
  obtain ⟨hpair, hchain, halign, hrange⟩ := h
  obtain ⟨pks, prs, ov⟩ := s
  cases pks with
  | none => exact ⟨hpair, hchain, halign, hrange⟩
  | some pk =>
      cases prs with
      | none => exact absurd (hpair.mpr rfl) (by simp)
      | some pr =>
          simp only [Option.getD_some] at hchain halign hrange
          cases hidx : pk.findIdx? (fun v => decide (v = peak)) with
          | none => simp only [deletePeak, hidx]; exact ⟨hpair, by simpa using hchain,
              by simpa using halign, by simpa using hrange⟩
          | some i =>
              have hi : i < pk.length :=
                (List.findIdx?_eq_some_iff_findIdx_eq.mp hidx).1
              have hlen : pr.length = pk.length := by
                rw [← halign, List.length_map]
              simp only [deletePeak, hidx, hlen ▸ hi, if_pos]
              by_cases hemp : (pk.eraseIdx i).isEmpty
              · simp only [if_pos hemp]
                exact ⟨by simp, by simp, by simp, by simp⟩
              · simp only [if_neg hemp, hlen ▸ hi, if_pos]
                refine ⟨by simp [hemp], ?_, ?_, ?_⟩
                · simp only [Option.getD_some]
                  exact List.chain'_iff_pairwise.mpr
                    (List.Pairwise.sublist (List.eraseIdx_sublist pk i)
                      (List.chain'_iff_pairwise.mp hchain))
                · simp only [Option.getD_some]
                  rw [map_eraseIdx, halign]
                · intro p hp
                  simp only [Option.getD_some] at hp
                  exact hrange p ((List.eraseIdx_sublist pk i).subset hp)

theorem rebuild_inv {ctx : Ctx} {pk : List Int} {prs : Option (List PropRec)}
    {ov : Option (List (Int × Int))} (hne : ¬ pk.isEmpty) (hnd : pk.Nodup)
    (hrange : ∀ p ∈ pk, 0 ≤ p ∧ p < (ctx.series.length : Int)) :
    StoreInv ctx (rebuildPeakProperties ctx ⟨some pk, prs, ov⟩) := by
  simp only [rebuildPeakProperties, hne, if_neg, Bool.false_eq_true, not_false_iff]
  refine ⟨by simp, ?_, ?_, ?_⟩
  · simpa using chain_lt_of_argsort hnd
  · simp only [Option.getD_some, List.map_map]
    have hlen : ((argsort pk).map (iget pk)).length ≤
        (selectHybridBoundaries ctx.series ((argsort pk).map (iget pk)) (prs.getD [])
          (ctx.widthEst ((argsort pk).map (iget pk)))).length := by
      rw [selectHybrid_length]
    exact Eq.trans
      (List.map_congr_left (fun pb _ => buildSingle_peak_idx ctx.series pb.1 pb.2.1 pb.2.2))
      (List.map_fst_zip _ _ hlen)
  · intro p hp
    simp only [Option.getD_some] at hp
    exact hrange p (((argsort_map_perm pk).mem_iff).mp hp)

theorem storeInv_move {ctx : Ctx} {s : ChannelState} {old : Int} {x : ℚ}
    (hwf : Ctx.wf ctx) (h : StoreInv ctx s) :
    StoreInv ctx (commitTimeValue ctx s old x) := by
  obtain ⟨hpair, hchain, halign, hrange⟩ := h
  rw [commitTimeValue]
  by_cases h0 : ctx.time.length = 0
  · simp only [if_pos h0]
    exact ⟨hpair, hchain, halign, hrange⟩
  · simp only [if_neg h0]
    obtain ⟨pks, prs, ov⟩ := s
    cases pks with
    | none => exact ⟨hpair, hchain, halign, hrange⟩
    | some pk =>
        by_cases hemp : pk.isEmpty
        · simp only [if_pos hemp]
          exact ⟨hpair, hchain, halign, hrange⟩
        · simp only [if_neg hemp]
          cases hidx : pk.findIdx? (fun v => decide (v = old)) with
          | none => exact ⟨hpair, hchain, halign, hrange⟩
          | some i =>
              by_cases hsame : argminAbs ctx.time x = old
              · simp only [if_pos hsame]
                exact ⟨hpair, hchain, halign, hrange⟩
              · simp only [if_neg hsame]
                by_cases hocc : argminAbs ctx.time x ∈ pk
                · simp only [if_pos hocc]
                  exact ⟨hpair, hchain, halign, hrange⟩
                · simp only [if_neg hocc]
                  simp only [Option.getD_some] at hchain hrange
                  have htne : ctx.time ≠ [] := by
                    intro hc
                    rw [hc] at h0
                    exact h0 rfl
                  have hclick := argminAbs_range htne x
                  set nearest := argminAbs ctx.time x with hnear
                  set newPk := pk.set i nearest with hnpk
                  set sortedPk := (argsort newPk).map (iget newPk) with hspk
                  have hndnew : newPk.Nodup := nodup_set i (nodup_of_chain_lt hchain) hocc
                  have hrangenew : ∀ p ∈ sortedPk, 0 ≤ p ∧ p < (ctx.series.length : Int) := by
                    intro p hp
                    rcases List.mem_or_eq_of_mem_set
                        (((argsort_map_perm newPk).mem_iff).mp hp) with h1 | h2
                    · exact hrange p h1
                    · rw [h2]
                      refine ⟨hclick.1, ?_⟩
                      rw [hwf.1]
                      exact hclick.2
                  have hsne : ¬ sortedPk.isEmpty := by
                    rw [hspk, List.isEmpty_iff, ← List.length_eq_zero]
                    rw [List.length_map, argsort_length, hnpk, List.length_set]
                    rw [List.isEmpty_iff, ← List.length_eq_zero] at hemp
                    exact hemp
                  have hndsorted : sortedPk.Nodup :=
                    ((argsort_map_perm newPk).nodup_iff).mpr hndnew
                  have h1 := @rebuild_inv ctx _ prs ov hsne hndsorted hrangenew
                  obtain ⟨a1, a2, a3, a4⟩ := h1
                  exact ⟨by simpa using a1, by simpa using a2, by simpa using a3,
                    by simpa using a4⟩

theorem reconcile_bounds {L p : Int} {prevP nextP : Option Int}
    {wb vb rb : Option (Int × Int)}
    (hp1 : 1 ≤ p) (hp2 : p ≤ L - 2)
    (hprev : ∀ pv, prevP = some pv → 0 ≤ pv) :
    0 ≤ (reconcileBoundary L prevP nextP p wb vb rb).1 ∧
      (reconcileBoundary L prevP nextP p wb vb rb).1 < p ∧
      (reconcileBoundary L prevP nextP p wb vb rb).1 <
        (reconcileBoundary L prevP nextP p wb vb rb).2 ∧
      (reconcileBoundary L prevP nextP p wb vb rb).2 ≤ L - 1 := by
  rcases prevP with _ | pv <;> rcases nextP with _ | nx <;>
    · first
      | (simp only [reconcileBoundary, tailMargin]
         generalize (((wb.map Prod.fst).orElse fun _ => vb.map Prod.fst).orElse
           fun _ => rb.map Prod.fst).getD (p - 1) = l0
         generalize (((wb.map Prod.snd).orElse fun _ => vb.map Prod.snd).orElse
           fun _ => rb.map Prod.snd).getD (p + 1) = r0
         split_ifs <;> omega)
      | (have hpv : 0 ≤ pv := hprev pv rfl
         simp only [reconcileBoundary, tailMargin]
         generalize (((wb.map Prod.fst).orElse fun _ => vb.map Prod.fst).orElse
           fun _ => rb.map Prod.fst).getD (p - 1) = l0
         generalize (((wb.map Prod.snd).orElse fun _ => vb.map Prod.snd).orElse
           fun _ => rb.map Prod.snd).getD (p + 1) = r0
         split_ifs <;> omega)

theorem selectHybrid_getD {series : List ℚ} {peaks : List Int}
    {refs : List PropRec} {wbs : List (Option (Int × Int))} {i : Nat}
    (hi : i < peaks.length) :
    (selectHybridBoundaries series peaks refs wbs).getD i (0, 0) =
      reconcileBoundary (series.length : Int)
        (if i > 0 then some (iget peaks (i - 1)) else none)
        (if i < peaks.length - 1 then some (iget peaks (i + 1)) else none)
        (iget peaks i) (wbs.getD i none)
        ((derivePeakBoundaries series peaks).get? i)
        ((refs.get? i).map (fun pr => (pr.left_base, pr.right_base))) := by
  rw [selectHybridBoundaries, if_neg (by omega)]
  rw [List.getD_eq_getElem _ _ (by simpa using hi), List.getElem_map, List.getElem_range]

theorem iget_mem {peaks : List Int} {i : Nat} (hi : i < peaks.length) :
    iget peaks i ∈ peaks := by
  rw [iget, List.getD_eq_getElem _ _ hi]
  exact List.getElem_mem _

theorem selectHybrid_bounds {series : List ℚ} {peaks : List Int}
    {refs : List PropRec} {wbs : List (Option (Int × Int))}
    (hpk : ∀ q ∈ peaks, 1 ≤ q ∧ q ≤ (series.length : Int) - 2)
    {i : Nat} (hi : i < peaks.length) :
    0 ≤ ((selectHybridBoundaries series peaks refs wbs).getD i (0, 0)).1 ∧
      ((selectHybridBoundaries series peaks refs wbs).getD i (0, 0)).1 < iget peaks i ∧
      ((selectHybridBoundaries series peaks refs wbs).getD i (0, 0)).1 <
        ((selectHybridBoundaries series peaks refs wbs).getD i (0, 0)).2 ∧
      ((selectHybridBoundaries series peaks refs wbs).getD i (0, 0)).2 ≤
        (series.length : Int) - 1 := by
  rw [selectHybrid_getD hi]
  obtain ⟨h1, h2⟩ := hpk _ (iget_mem hi)
  refine reconcile_bounds h1 h2 ?_
  intro pv hpv
  by_cases h0 : i > 0
  · rw [if_pos h0] at hpv
    have hm : iget peaks (i - 1) ∈ peaks := iget_mem (by omega)
    have := (hpk _ hm).1
    have hpveq : iget peaks (i - 1) = pv := by
      injection hpv
    omega
  · rw [if_neg h0] at hpv
    cases hpv

theorem buildSingle_bounds {series : List ℚ} {p lb rb : Int}
    (hp0 : 0 ≤ p) (hpL : p < (series.length : Int)) :
    0 ≤ (buildSinglePeakProperty series p lb rb).left_base ∧
      (buildSinglePeakProperty series p lb rb).left_base ≤ p ∧
      (0 < p → (buildSinglePeakProperty series p lb rb).left_base < p) ∧
      p ≤ (buildSinglePeakProperty series p lb rb).right_base ∧
      (p < (series.length : Int) - 1 → p < (buildSinglePeakProperty series p lb rb).right_base) ∧
      (buildSinglePeakProperty series p lb rb).right_base ≤ (series.length : Int) - 1 := by
  have hL : ((series.length : Int)) ≠ 0 := by omega
  simp only [buildSinglePeakProperty, if_neg hL]
  refine ⟨?_, ?_, ?_, ?_, ?_, ?_⟩ <;> omega

theorem mem_argsort_map_getD {v : List Int} {pr : List PropRec} {rec : PropRec}
    (hlen : pr.length = v.length)
    (h : rec ∈ (argsort v).map (fun i => pr.getD i default)) : rec ∈ pr := by
  rcases List.mem_map.mp h with ⟨i, hi, hrec⟩
  have hiv : i < pr.length := hlen ▸ mem_argsort_lt hi
  rw [← hrec, List.getD_eq_getElem _ _ hiv]
  exact List.getElem_mem _

theorem applyBounds_mem {rec : PropRec} :
    ∀ {props : List PropRec} {bounds : List (Int × Int)},
      rec ∈ applyBounds props bounds →
      ∃ k, k < props.length ∧ k < bounds.length ∧
        rec.left_base = (bounds.getD k (0, 0)).1 ∧
        rec.right_base = (bounds.getD k (0, 0)).2 ∧
        rec.peak_idx = (props.getD k default).peak_idx := by
  intro props
  induction props with
  | nil => intro bounds h; simp [applyBounds] at h
  | cons a t ih =>
      intro bounds h
      cases bounds with
      | nil => simp [applyBounds] at h
      | cons b bs =>
          rw [applyBounds, List.zipWith_cons_cons] at h
          rcases List.mem_cons.mp h with h1 | h2
          · refine ⟨0, by simp, by simp, ?_, ?_, ?_⟩ <;> simp [h1]
          · rcases ih h2 with ⟨k, hk1, hk2, e1, e2, e3⟩
            exact ⟨k + 1, by simpa using hk1, by simpa using hk2, by simpa using e1,
              by simpa using e2, by simpa using e3⟩

theorem firstMinBy_cons (key : Int → ℚ) (x : Int) (l : List Int) :
    firstMinBy key (x :: l) =
      match firstMinBy key l with
      | none => some x
      | some y => if key y < key x then some y else some x := rfl

theorem firstMinBy_mem {key : Int → ℚ} :
    ∀ {l : List Int} {y : Int}, firstMinBy key l = some y → y ∈ l := by
  intro l
  induction l with
  | nil => intro y h; cases h
  | cons x t ih =>
      intro y h
      rw [firstMinBy_cons] at h
      cases ht : firstMinBy key t with
      | none =>
          rw [ht] at h
          have h' : some x = some y := h
          injection h' with h'
          exact h' ▸ List.mem_cons_self x t
      | some z =>
          rw [ht] at h
          have h' : (if key z < key x then some z else some x) = some y := h
          by_cases hc : key z < key x
          · rw [if_pos hc] at h'
            injection h' with h'
            exact h' ▸ List.mem_cons_of_mem x (ih ht)
          · rw [if_neg hc] at h'
            injection h' with h'
            exact h' ▸ List.mem_cons_self x t

theorem pickFold_some (time : List ℚ) (rt : ℚ) (used : List Int) :
    ∀ (fs : List Int) (b : Int),
      fs.foldl
        (fun best f =>
          if f ∈ used then best
          else
            let ft := timeAt time f
            if ft ≤ rt then best
            else
              let d := ft - rt
              match best with
              | none => some (f, d)
              | some bd => if d < bd.2 then some (f, d) else best)
        (some (b, timeAt time b - rt)) =
      some (match firstMinBy (fun f => timeAt time f - rt)
          (fs.filter (fun f => f ∉ used ∧ rt < timeAt time f)) with
        | none => (b, timeAt time b - rt)
        | some y => if timeAt time y - rt < timeAt time b - rt
            then (y, timeAt time y - rt) else (b, timeAt time b - rt)) := by
  intro fs
  induction fs with
  | nil => intro b; rfl
  | cons f t ih =>
      intro b
      rw [List.foldl_cons]
      by_cases hmem : f ∈ used
      · have hfilt : List.filter (fun f => decide (f ∉ used ∧ rt < timeAt time f)) (f :: t)
            = List.filter (fun f => decide (f ∉ used ∧ rt < timeAt time f)) t := by
          rw [List.filter_cons, if_neg (by simp [hmem])]
        rw [hfilt, if_pos hmem]
        exact ih b
      · rw [if_neg hmem]
        by_cases hle : timeAt time f ≤ rt
        · have hfilt : List.filter (fun f => decide (f ∉ used ∧ rt < timeAt time f)) (f :: t)
              = List.filter (fun f => decide (f ∉ used ∧ rt < timeAt time f)) t := by
            rw [List.filter_cons, if_neg (by simp [hle, not_lt.mpr hle])]
          rw [hfilt]
          simp only [if_pos hle]
          exact ih b
        · have hpred : (f ∉ used ∧ rt < timeAt time f) := ⟨hmem, lt_of_not_le hle⟩
          have hfilt : List.filter (fun f => decide (f ∉ used ∧ rt < timeAt time f)) (f :: t)
              = f :: List.filter (fun f => decide (f ∉ used ∧ rt < timeAt time f)) t := by
            rw [List.filter_cons, if_pos (by simpa using hpred)]
          rw [hfilt]
          simp only [if_neg hle]
          by_cases hfb : timeAt time f - rt < timeAt time b - rt
          · rw [if_pos hfb, ih f, firstMinBy_cons]
            cases hrest : firstMinBy (fun f => timeAt time f - rt)
                (t.filter (fun f => f ∉ used ∧ rt < timeAt time f)) with
            | none => dsimp only; rw [if_pos hfb]
            | some z =>
                by_cases c1 : timeAt time z - rt < timeAt time f - rt <;>
                  by_cases c2 : timeAt time z - rt < timeAt time b - rt <;>
                    simp only [c1, c2, hfb, if_true, if_false] <;>
                      first | rfl | (exfalso; linarith)
          · rw [if_neg hfb, ih b, firstMinBy_cons]
            cases hrest : firstMinBy (fun f => timeAt time f - rt)
                (t.filter (fun f => f ∉ used ∧ rt < timeAt time f)) with
            | none => dsimp only; rw [if_neg hfb]
            | some z =>
                by_cases c1 : timeAt time z - rt < timeAt time f - rt <;>
                  by_cases c2 : timeAt time z - rt < timeAt time b - rt <;>
                    simp only [c1, c2, hfb, if_true, if_false] <;>
                      first | rfl | (exfalso; linarith)

theorem pickBest_eq (time : List ℚ) (rt : ℚ) (used : List Int) (fs : List Int) :
    pickBest time rt used fs =
      (firstMinBy (fun f => timeAt time f - rt)
        (fs.filter (fun f => f ∉ used ∧ rt < timeAt time f))).map
        (fun f => (f, timeAt time f - rt)) := by
  rw [pickBest]
  induction fs with
  | nil => rfl
  | cons f t ih =>
      rw [List.foldl_cons]
      by_cases hmem : f ∈ used
      · have hfilt : List.filter (fun f => decide (f ∉ used ∧ rt < timeAt time f)) (f :: t)
            = List.filter (fun f => decide (f ∉ used ∧ rt < timeAt time f)) t := by
          rw [List.filter_cons, if_neg (by simp [hmem])]
        rw [hfilt, if_pos hmem]
        exact ih
      · rw [if_neg hmem]
        by_cases hle : timeAt time f ≤ rt
        · have hfilt : List.filter (fun f => decide (f ∉ used ∧ rt < timeAt time f)) (f :: t)
              = List.filter (fun f => decide (f ∉ used ∧ rt < timeAt time f)) t := by
            rw [List.filter_cons, if_neg (by simp [hle, not_lt.mpr hle])]
          rw [hfilt]
          simp only [if_pos hle]
          exact ih
        · have hpred : (f ∉ used ∧ rt < timeAt time f) := ⟨hmem, lt_of_not_le hle⟩
          have hfilt : List.filter (fun f => decide (f ∉ used ∧ rt < timeAt time f)) (f :: t)
              = f :: List.filter (fun f => decide (f ∉ used ∧ rt < timeAt time f)) t := by
            rw [List.filter_cons, if_pos (by simpa using hpred)]
          rw [hfilt]
          simp only [if_neg hle]
          rw [pickFold_some, firstMinBy_cons]
          cases hrest : firstMinBy (fun f => timeAt time f - rt)
              (t.filter (fun f => f ∉ used ∧ rt < timeAt time f)) with
          | none => rfl
          | some z =>
              by_cases c1 : timeAt time z - rt < timeAt time f - rt <;>
                simp only [c1, if_true, if_false, Option.map_some'] <;> rfl

theorem pickBest_props {time : List ℚ} {rt : ℚ} {used fs : List Int} {fd : Int × ℚ}
    (h : pickBest time rt used fs = some fd) :
    fd.1 ∈ fs ∧ fd.1 ∉ used ∧ rt < timeAt time fd.1 ∧ fd.2 = timeAt time fd.1 - rt := by
  rw [pickBest_eq] at h
  cases hf : firstMinBy (fun f => timeAt time f - rt)
      (fs.filter (fun f => f ∉ used ∧ rt < timeAt time f)) with
  | none => rw [hf] at h; simp at h
  | some y =>
      rw [hf] at h
      simp only [Option.map_some'] at h
      have hy := firstMinBy_mem hf
      have hm := List.mem_filter.mp hy
      have hp : y ∉ used ∧ rt < timeAt time y := by
        have := hm.2
        simpa using this
      injection h with h
      rw [← h]
      exact ⟨hm.1, hp.1, hp.2, rfl⟩

theorem find?_cond_iff {α : Type} (p q : α → Bool) (h : ∀ a, p a = true ↔ q a = true) :
    ∀ l : List α, l.find? p = l.find? q := by
  intro l
  induction l with
  | nil => rfl
  | cons a t ih =>
      by_cases hpa : p a = true
      · rw [List.find?_cons_of_pos _ hpa, List.find?_cons_of_pos _ ((h a).mp hpa)]
      · rw [List.find?_cons_of_neg _ hpa,
          List.find?_cons_of_neg _ (fun hq => hpa ((h a).mpr hq)), ih]

theorem dictGet?_eq_none_iff (m : List (Int × Int)) (k : Int) :
    dictGet? m k = none ↔ ∀ kv ∈ m, kv.1 ≠ k := by
  simp [dictGet?, List.find?_eq_none]

theorem dictGet?_not_contains {m : List (Int × Int)} {k : Int}
    (h : dictContains m k = false) : dictGet? m k = none := by
  rw [dictGet?_eq_none_iff]
  intro kv hkv hke
  rw [dictContains, List.any_eq_false] at h
  exact h kv hkv (by simp [hke])

theorem dictGet?_erase_self (m : List (Int × Int)) (k : Int) :
    dictGet? (dictErase m k) k = none := by
  rw [dictGet?_eq_none_iff]
  intro kv hkv
  have := (List.mem_filter.mp hkv).2
  simpa using this

theorem dictGet?_erase_ne (m : List (Int × Int)) {k k' : Int} (h : k' ≠ k) :
    dictGet? (dictErase m k) k' = dictGet? m k' := by
  rw [dictErase, dictGet?, dictGet?, List.find?_filter]
  rw [find?_cond_iff _ (fun kv => decide (kv.1 = k')) ?_]
  intro a
  simp only [decide_eq_true_eq]
  constructor
  · intro hc
    exact hc.2
  · intro hc
    exact ⟨by simp [hc, h], hc⟩

theorem find?_map_set (k v : Int) :
    ∀ t : List (Int × Int),
      (t.map (fun kv => if kv.1 = k then (k, v) else kv)).find? (fun kv => kv.1 = k) =
        if dictContains t k then some (k, v) else none := by
  intro t
  induction t with
  | nil => rfl
  | cons a l ih =>
      rw [List.map_cons]
      by_cases ha : a.1 = k
      · rw [if_pos ha, List.find?_cons_of_pos _ (by simp),
          if_pos (by simp [dictContains, ha])]
      · rw [if_neg ha, List.find?_cons_of_neg _ (by simpa using ha), ih]
        by_cases hc : dictContains l k
        · rw [if_pos hc, if_pos (by simp [dictContains] at hc ⊢; exact Or.inr hc)]
        · rw [if_neg hc, if_neg ?_]
          simp only [dictContains, List.any_cons, Bool.or_eq_true] at hc ⊢
          intro hcon
          rcases hcon with h1 | h2
          · exact ha (by simpa using h1)
          · exact hc (by simpa [dictContains] using h2)

theorem dictGet?_set_self (m : List (Int × Int)) (k v : Int) :
    dictGet? (dictSet m k v) k = some v := by
  rw [dictSet]
  by_cases hc : dictContains m k
  · rw [if_pos hc, dictGet?, find?_map_set, if_pos hc]
    rfl
  · rw [if_neg hc, dictGet?, List.find?_append]
    have h1 : m.find? (fun kv => decide (kv.1 = k)) = none := by
      have := @dictGet?_not_contains m k (by simpa using hc)
      rw [dictGet?] at this
      cases hf : m.find? (fun kv => decide (kv.1 = k)) with
      | none => rfl
      | some y => rw [hf] at this; simp at this
    rw [h1]
    simp

theorem find?_map_set_ne (k v k' : Int) (h : k' ≠ k) :
    ∀ t : List (Int × Int),
      (t.map (fun kv => if kv.1 = k then (k, v) else kv)).find? (fun kv => kv.1 = k') =
        t.find? (fun kv => kv.1 = k') := by
  intro t
  induction t with
  | nil => rfl
  | cons a l ih =>
      rw [List.map_cons]
      by_cases ha : a.1 = k
      · rw [if_pos ha, List.find?_cons_of_neg _ (by simp [Ne.symm h]),
          List.find?_cons_of_neg _ (by simp [ha, Ne.symm h]), ih]
      · by_cases ha' : a.1 = k'
        · rw [if_neg ha, List.find?_cons_of_pos _ (by simpa using ha'),
            List.find?_cons_of_pos _ (by simpa using ha')]
        · rw [if_neg ha, List.find?_cons_of_neg _ (by simpa using ha'),
            List.find?_cons_of_neg _ (by simpa using ha'), ih]

theorem dictGet?_set_ne (m : List (Int × Int)) {k k' : Int} (v : Int) (h : k' ≠ k) :
    dictGet? (dictSet m k v) k' = dictGet? m k' := by
  rw [dictSet]
  by_cases hc : dictContains m k
  · rw [if_pos hc, dictGet?, dictGet?, find?_map_set_ne k v k' h]
  · rw [if_neg hc, dictGet?, List.find?_append, dictGet?]
    cases hf : m.find? (fun kv => decide (kv.1 = k')) with
    | some y => simp
    | none =>
        simp only [Option.none_or]
        rw [List.find?_cons_of_neg _ (by simp [Ne.symm h]), List.find?_nil]

theorem dictGet?_some_contains {m : List (Int × Int)} {k : Int} {v : Int}
    (h : dictGet? m k = some v) : dictContains m k = true := by
  rw [dictGet?] at h
  cases hf : m.find? (fun kv => decide (kv.1 = k)) with
  | none => rw [hf] at h; simp at h
  | some kv =>
      have h1 : kv ∈ m := List.mem_of_find?_eq_some hf
      have h2 := List.find?_some hf
      rw [dictContains, List.any_eq_true]
      exact ⟨kv, h1, by simpa using h2⟩

theorem dictContains_some {m : List (Int × Int)} {k : Int}
    (h : dictContains m k = true) : ∃ v, dictGet? m k = some v := by
  rw [dictContains, List.any_eq_true] at h
  obtain ⟨kv, hkv, hke⟩ := h
  have hs : (m.find? (fun kv => decide (kv.1 = k))).isSome = true := by
    rw [List.find?_isSome]
    exact ⟨kv, hkv, hke⟩
  obtain ⟨y, hy⟩ := Option.isSome_iff_exists.mp hs
  refine ⟨y.2, ?_⟩
  rw [dictGet?, hy]
  rfl

/-- C10: resolving display match ids prunes the stored override map as a side
effect: surviving entries are exactly the stored overrides whose peak index is
still in the metric list (the reading's entry disappears when none survive),
and a second resolution with the same metric list returns the same
already-pruned store and the same resolved map. -/
theorem claim_C10 (ovr : Option (List (Int × Int))) (metricIdxs : List Int)
    (autoMap : List (Int × Int)) :
    resolveMatchMap (resolveMatchMap ovr metricIdxs autoMap).1 metricIdxs autoMap =
      resolveMatchMap ovr metricIdxs autoMap ∧
    (∀ kv ∈ ((resolveMatchMap ovr metricIdxs autoMap).1.getD []),
      kv.1 ∈ metricIdxs ∧ kv ∈ ovr.getD []) ∧
    (∀ kv ∈ ovr.getD [], kv.1 ∈ metricIdxs →
      kv ∈ (resolveMatchMap ovr metricIdxs autoMap).1.getD []) ∧
    (((ovr.getD []).filter (fun kv => kv.1 ∈ metricIdxs)) = [] →
      (resolveMatchMap ovr metricIdxs autoMap).1 = none) := by
  refine ⟨?_, ?_, ?_, ?_⟩
  · have hclean : (((resolveMatchMap ovr metricIdxs autoMap).1.getD []).filter
        (fun kv => kv.1 ∈ metricIdxs)) =
        ((ovr.getD []).filter (fun kv => kv.1 ∈ metricIdxs)) := by
      rw [resolveMatchMap]
      by_cases he : ((ovr.getD []).filter (fun kv => kv.1 ∈ metricIdxs)).isEmpty
      · have he' := List.isEmpty_iff.mp he
        simp only [he, if_true, Option.getD_none, List.filter_nil]
        exact he'.symm
      · simp only [he, Bool.false_eq_true, if_false, Option.getD_some, List.filter_filter]
        refine List.filter_congr ?_
        intro kv _
        simp
    simp only [resolveMatchMap] at hclean ⊢
    rw [hclean]
  · intro kv hkv
    rw [resolveMatchMap] at hkv
    by_cases he : ((ovr.getD []).filter (fun kv => kv.1 ∈ metricIdxs)).isEmpty
    · simp only [he, if_true, Option.getD_none] at hkv
      cases hkv
    · simp only [he, Bool.false_eq_true, if_false, Option.getD_some] at hkv
      have := List.mem_filter.mp hkv
      exact ⟨by simpa using this.2, this.1⟩
  · intro kv hkv hmem
    rw [resolveMatchMap]
    have hin : kv ∈ (ovr.getD []).filter (fun kv => kv.1 ∈ metricIdxs) :=
      List.mem_filter.mpr ⟨hkv, by simpa using hmem⟩
    have hne : ¬ ((ovr.getD []).filter (fun kv => kv.1 ∈ metricIdxs)).isEmpty := by
      intro hc
      rw [List.isEmpty_iff] at hc
      rw [hc] at hin
      cases hin
    simp only [hne, Bool.false_eq_true, if_false, Option.getD_some]
    exact hin
  · intro hnil
    rw [resolveMatchMap]
    simp only [hnil]
    rfl

/-- C10 witness: a store with two overrides, one stale; resolving prunes the
stale entry and is idempotent. -/
theorem claim_C10_witness :
    resolveMatchMap (resolveMatchMap (some [(3, 1), (9, 2)]) [3, 8] [(8, 1)]).1 [3, 8] [(8, 1)] =
      resolveMatchMap (some [(3, 1), (9, 2)]) [3, 8] [(8, 1)] ∧
    (∀ kv ∈ ((resolveMatchMap (some [(3, 1), (9, 2)]) [3, 8] [(8, 1)]).1.getD []),
      kv.1 ∈ [(3 : Int), 8] ∧ kv ∈ (some [((3 : Int), (1 : Int)), (9, 2)]).getD []) ∧
    (∀ kv ∈ (some [((3 : Int), (1 : Int)), (9, 2)]).getD [], kv.1 ∈ [(3 : Int), 8] →
      kv ∈ (resolveMatchMap (some [(3, 1), (9, 2)]) [3, 8] [(8, 1)]).1.getD []) ∧
    ((((some [((3 : Int), (1 : Int)), (9, 2)]).getD []).filter
        (fun kv => kv.1 ∈ [(3 : Int), 8])) = [] →
      (resolveMatchMap (some [(3, 1), (9, 2)]) [3, 8] [(8, 1)]).1 = none) :=
  claim_C10 (some [(3, 1), (9, 2)]) [3, 8] [(8, 1)]

theorem applyBounds_map_peak_idx :
    ∀ {props : List PropRec} {bounds : List (Int × Int)},
      props.length ≤ bounds.length →
      (applyBounds props bounds).map (fun r => r.peak_idx) =
        props.map (fun r => r.peak_idx) := by
  intro props
  induction props with
  | nil => intro bounds _; rfl
  | cons a t ih =>
      intro bounds hlen
      cases bounds with
      | nil => simp at hlen
      | cons b bs =>
          rw [applyBounds, List.zipWith_cons_cons, List.map_cons, List.map_cons]
          refine congrArg₂ (· :: ·) rfl ?_
          exact ih (by simpa using hlen)

theorem parseFloatErrors_nil {label : String} {fi : FieldInput}
    (h : parseFloatErrors label fi = []) : ∃ q, fi = .num q := by
  cases fi with
  | missing => simp [parseFloatErrors] at h
  | invalid => simp [parseFloatErrors] at h
  | num q => exact ⟨q, rfl⟩

theorem parsePosIntErrors_nil {label : String} {fi : FieldInput}
    (h : parsePosIntErrors label fi = []) : ∃ q, fi = .num q ∧ 0 < pyTrunc q := by
  cases fi with
  | missing => simp [parsePosIntErrors] at h
  | invalid => simp [parsePosIntErrors] at h
  | num q =>
      refine ⟨q, rfl, ?_⟩
      rw [parsePosIntErrors] at h
      by_cases hq : pyTrunc q ≤ 0
      · rw [if_pos hq] at h
        cases h
      · omega

theorem getParams_none_iff (f : DetectFields) :
    getDetectionParams f = none ↔ detectionErrors f ≠ [] := by
  constructor
  · intro hm he
    rw [getDetectionParams, if_pos he] at hm
    rw [detectionErrors] at he
    have h1 := List.append_eq_nil.mp he
    have h2 := List.append_eq_nil.mp h1.1
    have h3 := List.append_eq_nil.mp h2.1
    obtain ⟨qh, hh⟩ := parseFloatErrors_nil h3.1
    obtain ⟨qp, hp⟩ := parseFloatErrors_nil h3.2
    obtain ⟨qd, hd, _⟩ := parsePosIntErrors_nil h2.2
    obtain ⟨qw, hw, _⟩ := parsePosIntErrors_nil h1.2
    rw [hh, hp, hd, hw] at hm
    cases hm
  · intro hne
    rw [getDetectionParams, if_neg hne]

/-- C5: a successful detection run replaces the reading's entire peak index
set and property set on each channel with the newly detected ones (the prior
store contents are irrelevant to the result) and clears the reading's manual
pairing overrides on both channels; a bulk clear removes the reading's peak
sets, property lists and overrides on both channels. -/
theorem claim_C5 (ctxR ctxF : Ctx) (s s' : Store) (rf ff : DetectFields)
    (oR oF : DetectParams → List DetectSeed) (rp fp : DetectParams)
    (hr : getDetectionParams rf = some rp) (hf : getDetectionParams ff = some fp) :
    detectPeaks ctxR ctxF s rf ff oR oF = detectPeaks ctxR ctxF s' rf ff oR oF ∧
    (detectPeaks ctxR ctxF s rf ff oR oF).rhod.peaks =
      some ((oR rp).map (fun d => d.peak_idx)) ∧
    (detectPeaks ctxR ctxF s rf ff oR oF).fret.peaks =
      some ((oF fp).map (fun d => d.peak_idx)) ∧
    ((detectPeaks ctxR ctxF s rf ff oR oF).rhod.props.getD []).map (fun r => r.peak_idx) =
      (oR rp).map (fun d => d.peak_idx) ∧
    ((detectPeaks ctxR ctxF s rf ff oR oF).fret.props.getD []).map (fun r => r.peak_idx) =
      (oF fp).map (fun d => d.peak_idx) ∧
    (detectPeaks ctxR ctxF s rf ff oR oF).rhod.ovr = none ∧
    (detectPeaks ctxR ctxF s rf ff oR oF).fret.ovr = none ∧
    clearPeaks s = ⟨⟨none, none, none⟩, ⟨none, none, none⟩⟩ := by
  have hmap : ∀ (seeds : List DetectSeed),
      (seeds.map seedToProp).map (fun r => r.peak_idx) = seeds.map (fun d => d.peak_idx) := by
    intro seeds
    rw [List.map_map]
    rfl
  simp only [detectPeaks, hr, hf]
  refine ⟨trivial, trivial, trivial, ?_, ?_, trivial, trivial, rfl⟩
  · simp only [Option.getD_some]
    rw [applyBounds_map_peak_idx (by rw [selectHybrid_length]; simp), hmap]
  · simp only [Option.getD_some]
    rw [applyBounds_map_peak_idx (by rw [selectHybrid_length]; simp), hmap]

/-- C5 witness: a concrete detection run on the scenario trace fixture. -/
theorem claim_C5_witness :
    detectPeaks wCtx wCtx wStore wFields wFields wOracle wOracle =
      detectPeaks wCtx wCtx ⟨⟨some [2], some [], some [(2, 1)]⟩, emptyChannel⟩
        wFields wFields wOracle wOracle ∧
    (detectPeaks wCtx wCtx wStore wFields wFields wOracle wOracle).rhod.peaks =
      some ((wOracle ⟨1, 0, 2, 1⟩).map (fun d => d.peak_idx)) ∧
    (detectPeaks wCtx wCtx wStore wFields wFields wOracle wOracle).fret.peaks =
      some ((wOracle ⟨1, 0, 2, 1⟩).map (fun d => d.peak_idx)) ∧
    ((detectPeaks wCtx wCtx wStore wFields wFields wOracle wOracle).rhod.props.getD []).map
        (fun r => r.peak_idx) = (wOracle ⟨1, 0, 2, 1⟩).map (fun d => d.peak_idx) ∧
    ((detectPeaks wCtx wCtx wStore wFields wFields wOracle wOracle).fret.props.getD []).map
        (fun r => r.peak_idx) = (wOracle ⟨1, 0, 2, 1⟩).map (fun d => d.peak_idx) ∧
    (detectPeaks wCtx wCtx wStore wFields wFields wOracle wOracle).rhod.ovr = none ∧
    (detectPeaks wCtx wCtx wStore wFields wFields wOracle wOracle).fret.ovr = none ∧
    clearPeaks wStore = ⟨⟨none, none, none⟩, ⟨none, none, none⟩⟩ :=
  claim_C5 wCtx wCtx wStore ⟨⟨some [2], some [], some [(2, 1)]⟩, emptyChannel⟩
    wFields wFields wOracle wOracle ⟨1, 0, 2, 1⟩ ⟨1, 0, 2, 1⟩ (by decide) (by decide)

/-- C6 (amended).  Detection parameters are validated per channel with a
field-level error list, a detection attempt with an invalid or missing
parameter is rejected before any detection runs, and the peak sets and
property lists stay unchanged — but the reading's manual overrides are NOT
preserved: the source clears them before validating the parameters, so a
rejected detection still erases the overrides on both channels (see the
counterexample).  Negative height/prominence values are accepted and clamped
to 0 rather than rejected. -/
theorem claim_C6 (ctxR ctxF : Ctx) (s : Store) (rf ff : DetectFields)
    (oR oF : DetectParams → List DetectSeed)
    (hbad : getDetectionParams rf = none ∨ getDetectionParams ff = none) :
    detectPeaks ctxR ctxF s rf ff oR oF =
      ⟨{ s.rhod with ovr := none }, { s.fret with ovr := none }⟩ ∧
    (detectPeaks ctxR ctxF s rf ff oR oF).rhod.peaks = s.rhod.peaks ∧
    (detectPeaks ctxR ctxF s rf ff oR oF).rhod.props = s.rhod.props ∧
    (detectPeaks ctxR ctxF s rf ff oR oF).fret.peaks = s.fret.peaks ∧
    (detectPeaks ctxR ctxF s rf ff oR oF).fret.props = s.fret.props ∧
    (detectionErrors rf ≠ [] ∨ detectionErrors ff ≠ []) := by
  have hout : detectPeaks ctxR ctxF s rf ff oR oF =
      ⟨{ s.rhod with ovr := none }, { s.fret with ovr := none }⟩ := by
    rcases hbad with hb | hb
    · simp only [detectPeaks, hb]
    · cases hrf : getDetectionParams rf with
      | none => simp only [detectPeaks, hrf]
      | some rp => simp only [detectPeaks, hrf, hb]
  refine ⟨hout, ?_, ?_, ?_, ?_, ?_⟩
  · rw [hout]
  · rw [hout]
  · rw [hout]
  · rw [hout]
  · rcases hbad with hb | hb
    · exact Or.inl ((getParams_none_iff rf).mp hb)
    · exact Or.inr ((getParams_none_iff ff).mp hb)

/-- C6 witness: a missing height entry on the calcium channel rejects the
run; peak sets and property lists are untouched. -/
theorem claim_C6_witness :
    detectPeaks wCtx wCtx ⟨⟨some [2], some [], some [(2, 1)]⟩, emptyChannel⟩
        ⟨.missing, .num 0, .num 2, .num 1⟩ wFields wOracle wOracle =
      ⟨{ (⟨some [2], some [], some [(2, 1)]⟩ : ChannelState) with ovr := none },
        { emptyChannel with ovr := none }⟩ ∧
    (detectPeaks wCtx wCtx ⟨⟨some [2], some [], some [(2, 1)]⟩, emptyChannel⟩
        ⟨.missing, .num 0, .num 2, .num 1⟩ wFields wOracle wOracle).rhod.peaks =
      (⟨(⟨some [2], some [], some [(2, 1)]⟩ : ChannelState), emptyChannel⟩ : Store).rhod.peaks ∧
    (detectPeaks wCtx wCtx ⟨⟨some [2], some [], some [(2, 1)]⟩, emptyChannel⟩
        ⟨.missing, .num 0, .num 2, .num 1⟩ wFields wOracle wOracle).rhod.props =
      (⟨(⟨some [2], some [], some [(2, 1)]⟩ : ChannelState), emptyChannel⟩ : Store).rhod.props ∧
    (detectPeaks wCtx wCtx ⟨⟨some [2], some [], some [(2, 1)]⟩, emptyChannel⟩
        ⟨.missing, .num 0, .num 2, .num 1⟩ wFields wOracle wOracle).fret.peaks =
      (⟨(⟨some [2], some [], some [(2, 1)]⟩ : ChannelState), emptyChannel⟩ : Store).fret.peaks ∧
    (detectPeaks wCtx wCtx ⟨⟨some [2], some [], some [(2, 1)]⟩, emptyChannel⟩
        ⟨.missing, .num 0, .num 2, .num 1⟩ wFields wOracle wOracle).fret.props =
      (⟨(⟨some [2], some [], some [(2, 1)]⟩ : ChannelState), emptyChannel⟩ : Store).fret.props ∧
    (detectionErrors ⟨.missing, .num 0, .num 2, .num 1⟩ ≠ [] ∨
      detectionErrors wFields ≠ []) :=
  claim_C6 wCtx wCtx ⟨⟨some [2], some [], some [(2, 1)]⟩, emptyChannel⟩
    ⟨.missing, .num 0, .num 2, .num 1⟩ wFields wOracle wOracle (Or.inl (by decide))

/-- C6 counterexample: a rejected detection run (missing height entry) still
mutates the store — the reading's manual overrides are cleared before the
parameters are validated, so "no partial mutation" is false. -/
theorem claim_C6_counterexample :
    getDetectionParams (⟨.missing, .num 0, .num 2, .num 1⟩ : DetectFields) = none ∧
    (⟨⟨none, none, some [(3, 1)]⟩, emptyChannel⟩ : Store).rhod.ovr = some [(3, 1)] ∧
    (detectPeaks wCtx wCtx ⟨⟨none, none, some [(3, 1)]⟩, emptyChannel⟩
        ⟨.missing, .num 0, .num 2, .num 1⟩ wFields wOracle wOracle).rhod.ovr = none ∧
    detectPeaks wCtx wCtx ⟨⟨none, none, some [(3, 1)]⟩, emptyChannel⟩
        ⟨.missing, .num 0, .num 2, .num 1⟩ wFields wOracle wOracle ≠
      ⟨⟨none, none, some [(3, 1)]⟩, emptyChannel⟩ := by
  refine ⟨by decide, by decide, by decide, by decide⟩

theorem clearOvr_get_self (ovr : Option (List (Int × Int))) (peak : Int) :
    dictGet? ((clearManualOverride ovr peak).getD []) peak = none := by
  cases ovr with
  | none => rfl
  | some m =>
      rw [clearManualOverride]
      by_cases hc : dictContains m peak = true
      · rw [if_pos hc]
        by_cases he : (dictErase m peak).isEmpty = true
        · rw [if_pos he]
          rfl
        · rw [if_neg he]
          simpa using dictGet?_erase_self m peak
      · rw [if_neg hc]
        simpa using dictGet?_not_contains (by simpa using hc)

theorem clearOvr_get_ne (ovr : Option (List (Int × Int))) (peak k : Int) (h : k ≠ peak) :
    dictGet? ((clearManualOverride ovr peak).getD []) k = dictGet? (ovr.getD []) k := by
  cases ovr with
  | none => rfl
  | some m =>
      rw [clearManualOverride]
      by_cases hc : dictContains m peak = true
      · rw [if_pos hc]
        by_cases he : (dictErase m peak).isEmpty = true
        · rw [if_pos he]
          have hval := List.isEmpty_iff.mp he
          simp only [Option.getD_none, Option.getD_some]
          have h1 : dictGet? ([] : List (Int × Int)) k = none := rfl
          rw [h1]
          symm
          rw [dictGet?_eq_none_iff]
          intro kv hkv hke
          have hmem : kv ∈ dictErase m peak :=
            List.mem_filter.mpr ⟨hkv, by simp [hke, h]⟩
          rw [hval] at hmem
          cases hmem
        · rw [if_neg he]
          simpa using dictGet?_erase_ne m h
      · rw [if_neg hc]

/-- C7: deleting a peak index absent from the store is a no-op, leaving the
peak set, property list and overrides unchanged; deleting an existing peak
removes the index and the property record at the same position and purges the
peak's manual override (other overrides untouched); when the set becomes
empty the reading's peak and property entries are removed entirely rather
than left as empty lists. -/
theorem claim_C7 (s : ChannelState) (pk : List Int) (pr : List PropRec) (peak : Int)
    (hpk : s.peaks = some pk) (hpr : s.props = some pr)
    (halign : pr.map (fun r => r.peak_idx) = pk) :
    (peak ∉ pk → deletePeak s peak = s) ∧
    (∀ i, pk.findIdx? (fun v => v = peak) = some i →
      ((deletePeak s peak).peaks =
          (if pk.eraseIdx i = [] then none else some (pk.eraseIdx i)) ∧
        (deletePeak s peak).props =
          (if pk.eraseIdx i = [] then none else some (pr.eraseIdx i)) ∧
        dictGet? ((deletePeak s peak).ovr.getD []) peak = none ∧
        ∀ k, k ≠ peak →
          dictGet? ((deletePeak s peak).ovr.getD []) k = dictGet? (s.ovr.getD []) k)) := by
  obtain ⟨pks, prs, ov⟩ := s
  simp only at hpk hpr
  subst hpk
  subst hpr
  constructor
  · intro hmem
    have hnone : pk.findIdx? (fun v => decide (v = peak)) = none := by
      rw [List.findIdx?_eq_none_iff]
      intro x hx
      simp only [decide_eq_false_iff_not]
      intro he
      exact hmem (he ▸ hx)
    simp only [deletePeak, hnone]
  · intro i hidx
    have hi : i < pk.length := (List.findIdx?_eq_some_iff_findIdx_eq.mp hidx).1
    have hlen : i < pr.length := by
      have : pr.length = pk.length := by
        rw [← halign, List.length_map]
      omega
    by_cases hemp : (pk.eraseIdx i).isEmpty = true
    · have he' := List.isEmpty_iff.mp hemp
      simp only [deletePeak, hidx, hlen, if_pos, hemp, if_true, he']
      exact ⟨rfl, rfl, clearOvr_get_self ov peak, fun k hk => clearOvr_get_ne ov peak k hk⟩
    · have he' : pk.eraseIdx i ≠ [] := fun hc => hemp (List.isEmpty_iff.mpr hc)
      simp only [deletePeak, hidx, hlen, if_pos, hemp, Bool.false_eq_true, if_false, he',
        if_neg]
      exact ⟨True.intro, True.intro, clearOvr_get_self ov peak,
        fun k hk => clearOvr_get_ne ov peak k hk⟩

/-- C7 witness: deleting the peak at index 3 from a two-peak store removes
its record and purges its override while keeping other lookups intact. -/
theorem claim_C7_witness :
    ((3 : Int) ∉ ([3, 8] : List Int) →
      deletePeak ⟨some [3, 8], some [⟨3, 1, 1, 5, 0, 4, none⟩, ⟨8, 5, 6, 11, 4, 2, none⟩],
        some [(3, 1)]⟩ 3 =
        ⟨some [3, 8], some [⟨3, 1, 1, 5, 0, 4, none⟩, ⟨8, 5, 6, 11, 4, 2, none⟩],
          some [(3, 1)]⟩) ∧
    (∀ i, ([3, 8] : List Int).findIdx? (fun v => v = 3) = some i →
      ((deletePeak ⟨some [3, 8], some [⟨3, 1, 1, 5, 0, 4, none⟩, ⟨8, 5, 6, 11, 4, 2, none⟩],
          some [(3, 1)]⟩ 3).peaks =
        (if ([3, 8] : List Int).eraseIdx i = [] then none
          else some (([3, 8] : List Int).eraseIdx i)) ∧
      (deletePeak ⟨some [3, 8], some [⟨3, 1, 1, 5, 0, 4, none⟩, ⟨8, 5, 6, 11, 4, 2, none⟩],
          some [(3, 1)]⟩ 3).props =
        (if ([3, 8] : List Int).eraseIdx i = [] then none
          else some (([⟨3, 1, 1, 5, 0, 4, none⟩, ⟨8, 5, 6, 11, 4, 2, none⟩] :
            List PropRec).eraseIdx i)) ∧
      dictGet? ((deletePeak ⟨some [3, 8], some [⟨3, 1, 1, 5, 0, 4, none⟩,
          ⟨8, 5, 6, 11, 4, 2, none⟩], some [(3, 1)]⟩ 3).ovr.getD []) 3 = none ∧
      ∀ k, k ≠ 3 →
        dictGet? ((deletePeak ⟨some [3, 8], some [⟨3, 1, 1, 5, 0, 4, none⟩,
            ⟨8, 5, 6, 11, 4, 2, none⟩], some [(3, 1)]⟩ 3).ovr.getD []) k =
          dictGet? (((some [((3 : Int), (1 : Int))]).getD [])) k)) :=
  claim_C7 ⟨some [3, 8], some [⟨3, 1, 1, 5, 0, 4, none⟩, ⟨8, 5, 6, 11, 4, 2, none⟩],
    some [(3, 1)]⟩ [3, 8] [⟨3, 1, 1, 5, 0, 4, none⟩, ⟨8, 5, 6, 11, 4, 2, none⟩] 3
    rfl rfl (by decide)

/-- C8: committing a new time for a stored peak is a no-op when the click
snaps back to the peak's own index, is rejected (store unchanged) when it
snaps to an index already occupied by a different peak, and otherwise
replaces the index, re-sorts the set ascending, rebuilds every boundary of
the reading from scratch through the hybrid boundary resolver (the property
list is recomputed for all peaks, not just the moved one), and carries the
manual override value from the old index to the new index when one existed
(leaving the overrides untouched when none did). -/
theorem claim_C8 (ctx : Ctx) (s : ChannelState) (pk : List Int) (old : Int) (x : ℚ)
    (hpk : s.peaks = some pk) (hne : pk ≠ []) (ht : ctx.time.length ≠ 0)
    (hchain : List.Chain' (· < ·) pk) :
    (argminAbs ctx.time x = old → commitTimeValue ctx s old x = s) ∧
    (argminAbs ctx.time x ≠ old → argminAbs ctx.time x ∈ pk →
      commitTimeValue ctx s old x = s) ∧
    (∀ i, pk.findIdx? (fun v => v = old) = some i →
      argminAbs ctx.time x ≠ old → argminAbs ctx.time x ∉ pk →
      ∃ sorted2 : List Int,
        sorted2.Perm (pk.set i (argminAbs ctx.time x)) ∧
        List.Chain' (· < ·) sorted2 ∧
        (commitTimeValue ctx s old x).peaks = some sorted2 ∧
        (commitTimeValue ctx s old x).props = some
          ((sorted2.zip (selectHybridBoundaries ctx.series sorted2 (s.props.getD [])
              (ctx.widthEst sorted2))).map
            (fun pb => buildSinglePeakProperty ctx.series pb.1 pb.2.1 pb.2.2)) ∧
        (∀ v, dictGet? (s.ovr.getD []) old = some v →
          dictGet? ((commitTimeValue ctx s old x).ovr.getD []) (argminAbs ctx.time x)
              = some v ∧
            dictGet? ((commitTimeValue ctx s old x).ovr.getD []) old = none) ∧
        (dictGet? (s.ovr.getD []) old = none →
          (commitTimeValue ctx s old x).ovr = s.ovr)) := by
  obtain ⟨pks, prs, ov⟩ := s
  simp only at hpk
  subst hpk
  have hemp : pk.isEmpty = false := by
    cases pk with
    | nil => exact absurd rfl hne
    | cons a t => rfl
  refine ⟨?_, ?_, ?_⟩
  · intro hsame
    rw [commitTimeValue]
    simp only [if_neg ht, hemp, Bool.false_eq_true, if_false]
    cases hidx : pk.findIdx? (fun v => decide (v = old)) with
    | none => rfl
    | some i =>
        dsimp only
        rw [if_pos hsame]
  · intro hsame hocc
    rw [commitTimeValue]
    simp only [if_neg ht, hemp, Bool.false_eq_true, if_false]
    cases hidx : pk.findIdx? (fun v => decide (v = old)) with
    | none => rfl
    | some i =>
        dsimp only
        rw [if_neg hsame, if_pos hocc]
  · intro i hidx hsame hocc
    have hndpk : pk.Nodup := nodup_of_chain_lt hchain
    have hndnew : (pk.set i (argminAbs ctx.time x)).Nodup := nodup_set i hndpk hocc
    have hnd2 : ((argsort (pk.set i (argminAbs ctx.time x))).map
        (iget (pk.set i (argminAbs ctx.time x)))).Nodup :=
      ((argsort_map_perm _).nodup_iff).mpr hndnew
    have hsne : ((argsort (pk.set i (argminAbs ctx.time x))).map
        (iget (pk.set i (argminAbs ctx.time x)))).isEmpty = false := by
      rw [← Bool.not_eq_true, List.isEmpty_iff, ← List.length_eq_zero, List.length_map,
        argsort_length, List.length_set]
      intro hc
      exact hne (List.length_eq_zero.mp hc)
    have hres : commitTimeValue ctx ⟨some pk, prs, ov⟩ old x =
        ⟨some ((argsort ((argsort (pk.set i (argminAbs ctx.time x))).map
            (iget (pk.set i (argminAbs ctx.time x))))).map
          (iget ((argsort (pk.set i (argminAbs ctx.time x))).map
            (iget (pk.set i (argminAbs ctx.time x)))))),
         some (((((argsort ((argsort (pk.set i (argminAbs ctx.time x))).map
            (iget (pk.set i (argminAbs ctx.time x))))).map
          (iget ((argsort (pk.set i (argminAbs ctx.time x))).map
            (iget (pk.set i (argminAbs ctx.time x)))))).zip
            (selectHybridBoundaries ctx.series
              ((argsort ((argsort (pk.set i (argminAbs ctx.time x))).map
                  (iget (pk.set i (argminAbs ctx.time x))))).map
                (iget ((argsort (pk.set i (argminAbs ctx.time x))).map
                  (iget (pk.set i (argminAbs ctx.time x))))))
              (prs.getD [])
              (ctx.widthEst
                ((argsort ((argsort (pk.set i (argminAbs ctx.time x))).map
                    (iget (pk.set i (argminAbs ctx.time x))))).map
                  (iget ((argsort (pk.set i (argminAbs ctx.time x))).map
                    (iget (pk.set i (argminAbs ctx.time x))))))))).map
            (fun pb => buildSinglePeakProperty ctx.series pb.1 pb.2.1 pb.2.2))),
         match ov with
         | none => none
         | some m =>
             if ¬ m.isEmpty ∧ dictContains m old then
               some (dictSet (dictErase m old) (argminAbs ctx.time x)
                 ((dictGet? m old).getD 0))
             else some m⟩ := by
      rw [commitTimeValue]
      simp only [if_neg ht, hemp, Bool.false_eq_true, if_false, hidx, if_neg hsame,
        if_neg hocc, rebuildPeakProperties, hsne, Option.getD_some]
    refine ⟨(argsort ((argsort (pk.set i (argminAbs ctx.time x))).map
        (iget (pk.set i (argminAbs ctx.time x))))).map
      (iget ((argsort (pk.set i (argminAbs ctx.time x))).map
        (iget (pk.set i (argminAbs ctx.time x))))), ?_, ?_, ?_, ?_, ?_, ?_⟩
    · exact (argsort_map_perm _).trans (argsort_map_perm _)
    · exact chain_lt_of_argsort hnd2
    · rw [hres]
    · rw [hres]
    · intro v hv
      rw [hres]
      cases ov with
      | none => simp [dictGet?] at hv
      | some m =>
          simp only [Option.getD_some] at hv
          have hcont : dictContains m old = true := dictGet?_some_contains hv
          have hmne : ¬ m.isEmpty = true := by
            intro hc
            rw [List.isEmpty_iff.mp hc] at hv
            simp [dictGet?] at hv
          simp only [if_pos (And.intro hmne hcont), Option.getD_some]
          constructor
          · rw [dictGet?_set_self, hv]
            rfl
          · rw [dictGet?_set_ne _ _ (Ne.symm hsame), dictGet?_erase_self]
    · intro hv
      rw [hres]
      cases ov with
      | none => rfl
      | some m =>
          simp only [Option.getD_some] at hv
          have hcont : dictContains m old = false := by
            cases hc : dictContains m old with
            | false => rfl
            | true =>
                have hex : ∃ w, dictGet? m old = some w := dictContains_some hc
                obtain ⟨w, hw⟩ := hex
                rw [hv] at hw
                cases hw
          have hni : ¬ (¬ m.isEmpty = true ∧ dictContains m old = true) := by
            intro hc
            rw [hcont] at hc
            exact Bool.false_ne_true hc.2
          dsimp only
          rw [if_neg hni]

/-- C8 witness: in the 14-sample fixture, snapping a move of peak 3 back to
time 3 is a no-op, moving it onto occupied index 8 is rejected, and moving it
to time 5 re-sorts, rebuilds and carries the override from key 3 to key 5. -/
theorem claim_C8_witness :
    ((argminAbs wCtx.time 3 = 3 →
      commitTimeValue wCtx ⟨some [3, 8], none, some [(3, 7)]⟩ 3 3 =
        ⟨some [3, 8], none, some [(3, 7)]⟩) ∧
    (argminAbs wCtx.time 8 ≠ 3 → (argminAbs wCtx.time 8 : Int) ∈ ([3, 8] : List Int) →
      commitTimeValue wCtx ⟨some [3, 8], none, some [(3, 7)]⟩ 3 8 =
        ⟨some [3, 8], none, some [(3, 7)]⟩)) ∧
    (∀ i, ([3, 8] : List Int).findIdx? (fun v => v = 3) = some i →
      argminAbs wCtx.time 5 ≠ 3 → (argminAbs wCtx.time 5 : Int) ∉ ([3, 8] : List Int) →
      ∃ sorted2 : List Int,
        sorted2.Perm (([3, 8] : List Int).set i (argminAbs wCtx.time 5)) ∧
        List.Chain' (· < ·) sorted2 ∧
        (commitTimeValue wCtx ⟨some [3, 8], none, some [(3, 7)]⟩ 3 5).peaks
            = some sorted2 ∧
        (commitTimeValue wCtx ⟨some [3, 8], none, some [(3, 7)]⟩ 3 5).props = some
          ((sorted2.zip (selectHybridBoundaries wCtx.series sorted2
              ((none : Option (List PropRec)).getD [])
              (wCtx.widthEst sorted2))).map
            (fun pb => buildSinglePeakProperty wCtx.series pb.1 pb.2.1 pb.2.2)) ∧
        (∀ v, dictGet? ((some [((3 : Int), (7 : Int))]).getD []) 3 = some v →
          dictGet? ((commitTimeValue wCtx ⟨some [3, 8], none, some [(3, 7)]⟩ 3 5).ovr.getD
              []) (argminAbs wCtx.time 5) = some v ∧
            dictGet? ((commitTimeValue wCtx ⟨some [3, 8], none, some [(3, 7)]⟩ 3
                5).ovr.getD []) 3 = none) ∧
        (dictGet? ((some [((3 : Int), (7 : Int))]).getD []) 3 = none →
          (commitTimeValue wCtx ⟨some [3, 8], none, some [(3, 7)]⟩ 3 5).ovr
            = some [(3, 7)])) :=
  ⟨⟨(claim_C8 wCtx ⟨some [3, 8], none, some [(3, 7)]⟩ [3, 8] 3 3 rfl (by decide)
        (by decide) (by norm_num [List.chain'_cons])).1,
    (claim_C8 wCtx ⟨some [3, 8], none, some [(3, 7)]⟩ [3, 8] 3 8 rfl (by decide)
        (by decide) (by norm_num [List.chain'_cons])).2.1⟩,
    (claim_C8 wCtx ⟨some [3, 8], none, some [(3, 7)]⟩ [3, 8] 3 5 rfl (by decide)
        (by decide) (by norm_num [List.chain'_cons])).2.2⟩

theorem getD_range_map {α : Type} (d : α) (f : Nat → α) (n k : Nat) (hk : k < n) :
    ((List.range n).map f).getD k d = f k := by
  have h1 : k < ((List.range n).map f).length := by
    rw [List.length_map, List.length_range]
    exact hk
  rw [List.getD_eq_getElem _ _ h1, List.getElem_map, List.getElem_range]

theorem minListD_pair (a b d : ℚ) : minListD [a, b] d = min a b := rfl

theorem minListD_triple (a b c d : ℚ) : minListD [a, b, c] d = min a (min b c) := by
  show min (min a b) c = min a (min b c)
  exact min_assoc a b c

/-- C9: every metric record takes its baseline as the minimum of the
property's explicit baseline (when present) and the trace values at the two
stored bases; amplitude is the baseline-to-peak excursion floored at 0;
rise time is the time from the first sample at or above
baseline + 0.1*amplitude scanning forward from the left base to the peak and
decay time the time from the peak to the first sample at or below that
threshold scanning forward to the right base, both floored at 0 and both 0
outright when the amplitude is nonpositive. -/
theorem claim_C9 (series time : List ℚ) (props : List PropRec) (k : Nat)
    (hk : k < props.length)
    (hlb : 0 ≤ (props.getD k default).left_base)
    (hrb : (props.getD k default).right_base ≤ (series.length : Int) - 1) :
    let pr := props.getD k default
    let B : ℚ := match pr.baseline with
      | some b => min b (min (qget series pr.left_base) (qget series pr.right_base))
      | none => min (qget series pr.left_base) (qget series pr.right_base)
    let pv := qget series pr.peak_idx
    let thr : ℚ := B + (1 / 10) * (pv - B)
    let m := (collectPeakMetrics series time props).getD k default
    m.baseline = B ∧
    m.left_idx = pr.left_base ∧
    m.right_idx = pr.right_base ∧
    m.peak_idx = pr.peak_idx ∧
    m.amplitude = max 0 (pv - B) ∧
    (pv - B ≤ 0 → m.rise_time = 0 ∧ m.decay_time = 0) ∧
    (0 < pv - B →
      m.rise_time = max (qget time pr.peak_idx -
        qget time (((pyRange pr.left_base (pr.peak_idx + 1)).find?
          (fun i => thr ≤ qget series i)).getD pr.left_base)) 0 ∧
      m.decay_time = max (qget time (((pyRange pr.peak_idx (pr.right_base + 1)).find?
          (fun i => qget series i ≤ thr)).getD pr.right_base) -
        qget time pr.peak_idx) 0) := by
  dsimp only
  rw [collectPeakMetrics, getD_range_map _ _ _ _ hk]
  dsimp only
  rw [max_eq_right hlb, min_eq_right hrb]
  cases hb : (props.getD k default).baseline with
  | none =>
      dsimp only
      simp only [List.nil_append]
      rw [minListD_pair]
      refine ⟨rfl, True.intro, True.intro, True.intro, rfl, ?_, ?_⟩
      · intro hle
        rw [riseDecayTimes]
        dsimp only
        rw [if_pos hle]
        exact ⟨rfl, rfl⟩
      · intro hpos
        rw [riseDecayTimes]
        dsimp only
        rw [if_neg (not_le.mpr hpos)]
        exact ⟨rfl, rfl⟩
  | some b =>
      dsimp only
      simp only [List.cons_append, List.nil_append]
      rw [minListD_triple]
      refine ⟨rfl, True.intro, True.intro, True.intro, rfl, ?_, ?_⟩
      · intro hle
        rw [riseDecayTimes]
        dsimp only
        rw [if_pos hle]
        exact ⟨rfl, rfl⟩
      · intro hpos
        rw [riseDecayTimes]
        dsimp only
        rw [if_neg (not_le.mpr hpos)]
        exact ⟨rfl, rfl⟩

/-- C9 witness: the metric record of the single detected peak of the
14-sample fixture satisfies all the baseline, amplitude and rise/decay
characterizations at index 0. -/
theorem claim_C9_witness :
    (0 : Nat) < ([⟨8, 5, 6, 11, 4, 2, none⟩] : List PropRec).length ∧
    0 ≤ (([⟨8, 5, 6, 11, 4, 2, none⟩] : List PropRec).getD 0 default).left_base ∧
    (([⟨8, 5, 6, 11, 4, 2, none⟩] : List PropRec).getD 0 default).right_base ≤
      (wSeries.length : Int) - 1 ∧
    (let pr := ([⟨8, 5, 6, 11, 4, 2, none⟩] : List PropRec).getD 0 default
     let B : ℚ := match pr.baseline with
       | some b => min b (min (qget wSeries pr.left_base) (qget wSeries pr.right_base))
       | none => min (qget wSeries pr.left_base) (qget wSeries pr.right_base)
     let pv := qget wSeries pr.peak_idx
     let thr : ℚ := B + (1 / 10) * (pv - B)
     let m := (collectPeakMetrics wSeries wTime [⟨8, 5, 6, 11, 4, 2, none⟩]).getD 0 default
     m.baseline = B ∧
     m.left_idx = pr.left_base ∧
     m.right_idx = pr.right_base ∧
     m.peak_idx = pr.peak_idx ∧
     m.amplitude = max 0 (pv - B) ∧
     (pv - B ≤ 0 → m.rise_time = 0 ∧ m.decay_time = 0) ∧
     (0 < pv - B →
       m.rise_time = max (qget wTime pr.peak_idx -
         qget wTime (((pyRange pr.left_base (pr.peak_idx + 1)).find?
           (fun i => thr ≤ qget wSeries i)).getD pr.left_base)) 0 ∧
       m.decay_time = max (qget wTime (((pyRange pr.peak_idx (pr.right_base + 1)).find?
           (fun i => qget wSeries i ≤ thr)).getD pr.right_base) -
         qget wTime pr.peak_idx) 0)) :=
  ⟨by decide, by decide, by decide,
    claim_C9 wSeries wTime [⟨8, 5, 6, 11, 4, 2, none⟩] 0 (by decide) (by decide) (by decide)⟩

theorem matchFold_eq_specFold (time : List ℚ) (fs : List Int) :
    ∀ (rs : List Int) (acc : List Int × List PairRec),
      rs.foldl
        (fun acc r =>
          match pickBest time (timeAt time r) acc.1 fs with
          | none => acc
          | some fd => (acc.1 ++ [fd.1], acc.2 ++ [⟨r, fd.1, fd.2⟩])) acc =
      rs.foldl
        (fun acc r =>
          let rt := timeAt time r
          let candidates := fs.filter (fun f => f ∉ acc.1 ∧ rt < timeAt time f)
          match firstMinBy (fun f => timeAt time f - rt) candidates with
          | none => acc
          | some f => (acc.1 ++ [f], acc.2 ++ [⟨r, f, timeAt time f - rt⟩])) acc := by
  intro rs
  induction rs with
  | nil => intro acc; rfl
  | cons r rest ih =>
      intro acc
      rw [List.foldl_cons, List.foldl_cons, pickBest_eq]
      dsimp only
      cases hf : firstMinBy (fun f => timeAt time f - timeAt time r)
          (fs.filter (fun f => f ∉ acc.1 ∧ timeAt time r < timeAt time f)) with
      | none => dsimp only; exact ih acc
      | some y => dsimp only; exact ih _

theorem matchFold_invariant (time : List ℚ) (fs : List Int) :
    ∀ (rs : List Int) (acc : List Int × List PairRec),
      acc.2.map (fun pr => pr.fret) = acc.1 → acc.1.Nodup →
      (∀ pr ∈ acc.2, pr.delay = timeAt time pr.fret - timeAt time pr.rhod ∧ 0 < pr.delay) →
      ((rs.foldl
          (fun acc r =>
            match pickBest time (timeAt time r) acc.1 fs with
            | none => acc
            | some fd => (acc.1 ++ [fd.1], acc.2 ++ [⟨r, fd.1, fd.2⟩])) acc).2.map
        (fun pr => pr.fret) =
        (rs.foldl
          (fun acc r =>
            match pickBest time (timeAt time r) acc.1 fs with
            | none => acc
            | some fd => (acc.1 ++ [fd.1], acc.2 ++ [⟨r, fd.1, fd.2⟩])) acc).1) ∧
      (rs.foldl
          (fun acc r =>
            match pickBest time (timeAt time r) acc.1 fs with
            | none => acc
            | some fd => (acc.1 ++ [fd.1], acc.2 ++ [⟨r, fd.1, fd.2⟩])) acc).1.Nodup ∧
      (∀ pr ∈ (rs.foldl
          (fun acc r =>
            match pickBest time (timeAt time r) acc.1 fs with
            | none => acc
            | some fd => (acc.1 ++ [fd.1], acc.2 ++ [⟨r, fd.1, fd.2⟩])) acc).2,
        pr.delay = timeAt time pr.fret - timeAt time pr.rhod ∧ 0 < pr.delay) := by
  intro rs
  induction rs with
  | nil => intro acc h1 h2 h3; exact ⟨h1, h2, h3⟩
  | cons r rest ih =>
      intro acc h1 h2 h3
      rw [List.foldl_cons]
      cases hp : pickBest time (timeAt time r) acc.1 fs with
      | none => exact ih acc h1 h2 h3
      | some fd =>
          obtain ⟨hin, hnotused, hlt, hdel⟩ := pickBest_props hp
          refine ih _ ?_ ?_ ?_
          · simp [h1]
          · rw [List.nodup_append]
            exact ⟨h2, List.nodup_singleton _,
              fun a ha hb => (List.mem_singleton.mp hb ▸ hnotused) ha⟩
          · intro pr hpr
            rcases List.mem_append.mp hpr with hold | hnew
            · exact h3 pr hold
            · rw [List.mem_singleton.mp hnew]
              refine ⟨hdel, ?_⟩
              rw [hdel]
              show (0 : ℚ) < timeAt time fd.1 - timeAt time r
              linarith

/-! ### Claims -/

/-- C1 (amended).  The claimed strict invariant
`0 ≤ left_base < peak_idx < right_base ≤ length-1` fails at the trace edges
and under the tail-margin clamp (see the counterexample); what holds is:
after a detection run every stored record satisfies
`0 ≤ left_base < peak_idx`, `left_base < right_base ≤ length-1` (the
tail-margin clamp can leave `right_base ≤ peak_idx` for a final peak close to
the end of the trace); after a manual click-add and after a full-channel
boundary recomputation every stored record satisfies
`0 ≤ left_base ≤ peak_idx ≤ right_base ≤ length-1`, with both inequalities
around `peak_idx` strict except when the peak sits on the first or last
sample. -/
theorem claim_C1 :
    (∀ (ctxR ctxF : Ctx) (s : Store) (rf ff : DetectFields)
        (oR oF : DetectParams → List DetectSeed) (rp fp : DetectParams),
      getDetectionParams rf = some rp → getDetectionParams ff = some fp →
      (∀ d ∈ oR rp, 1 ≤ d.peak_idx ∧ d.peak_idx ≤ (ctxR.series.length : Int) - 2) →
      (∀ d ∈ oF fp, 1 ≤ d.peak_idx ∧ d.peak_idx ≤ (ctxF.series.length : Int) - 2) →
      (∀ rec ∈ (detectPeaks ctxR ctxF s rf ff oR oF).rhod.props.getD [],
        RecBoundsDetect (ctxR.series.length : Int) rec) ∧
      (∀ rec ∈ (detectPeaks ctxR ctxF s rf ff oR oF).fret.props.getD [],
        RecBoundsDetect (ctxF.series.length : Int) rec)) ∧
    (∀ (ctx : Ctx) (s : ChannelState) (x : ℚ),
      Ctx.wf ctx → StoreInv ctx s →
      (∀ rec ∈ s.props.getD [], RecBoundsEdge (ctx.series.length : Int) rec) →
      ∀ rec ∈ (addPeakViaClick ctx s x).props.getD [],
        RecBoundsEdge (ctx.series.length : Int) rec) ∧
    (∀ (ctx : Ctx) (s : ChannelState) (pk : List Int),
      s.peaks = some pk → pk ≠ [] →
      (∀ q ∈ pk, 0 ≤ q ∧ q < (ctx.series.length : Int)) →
      ∀ rec ∈ (rebuildPeakProperties ctx s).props.getD [],
        RecBoundsEdge (ctx.series.length : Int) rec) := by
  refine ⟨?_, ?_, ?_⟩
  · -- detection path
    intro ctxR ctxF s rf ff oR oF rp fp hr hf hseedR hseedF
    constructor
    · intro rec hrec
      simp only [detectPeaks, hr, hf] at hrec
      rcases applyBounds_mem hrec with ⟨k, hk1, hk2, e1, e2, e3⟩
      rw [List.length_map] at hk1
      rw [selectHybrid_length, List.length_map] at hk2
      have hpkid : ((List.map seedToProp (oR rp)).getD k default).peak_idx =
          iget (List.map (fun d => d.peak_idx) (oR rp)) k := by
        rw [List.getD_eq_getElem _ _ (by simpa using hk1), List.getElem_map, iget,
          List.getD_eq_getElem _ _ (by simpa using hk1), List.getElem_map]
        rfl
      rw [hpkid] at e3
      have hpk : ∀ q ∈ List.map (fun d => d.peak_idx) (oR rp),
          1 ≤ q ∧ q ≤ (ctxR.series.length : Int) - 2 := by
        intro q hq
        rcases List.mem_map.mp hq with ⟨d, hd, hdq⟩
        exact hdq ▸ hseedR d hd
      have hb := @selectHybrid_bounds ctxR.series (List.map (fun d => d.peak_idx) (oR rp))
        (List.map seedToProp (oR rp))
        (ctxR.widthEst (List.map (fun d => d.peak_idx) (oR rp))) hpk k
        (by simpa using hk2)
      rw [← e1, ← e2, ← e3] at hb
      exact ⟨hb.1, hb.2.1, hb.2.2.1, hb.2.2.2⟩
    · intro rec hrec
      simp only [detectPeaks, hr, hf] at hrec
      rcases applyBounds_mem hrec with ⟨k, hk1, hk2, e1, e2, e3⟩
      rw [List.length_map] at hk1
      rw [selectHybrid_length, List.length_map] at hk2
      have hpkid : ((List.map seedToProp (oF fp)).getD k default).peak_idx =
          iget (List.map (fun d => d.peak_idx) (oF fp)) k := by
        rw [List.getD_eq_getElem _ _ (by simpa using hk1), List.getElem_map, iget,
          List.getD_eq_getElem _ _ (by simpa using hk1), List.getElem_map]
        rfl
      rw [hpkid] at e3
      have hpk : ∀ q ∈ List.map (fun d => d.peak_idx) (oF fp),
          1 ≤ q ∧ q ≤ (ctxF.series.length : Int) - 2 := by
        intro q hq
        rcases List.mem_map.mp hq with ⟨d, hd, hdq⟩
        exact hdq ▸ hseedF d hd
      have hb := @selectHybrid_bounds ctxF.series (List.map (fun d => d.peak_idx) (oF fp))
        (List.map seedToProp (oF fp))
        (ctxF.widthEst (List.map (fun d => d.peak_idx) (oF fp))) hpk k
        (by simpa using hk2)
      rw [← e1, ← e2, ← e3] at hb
      exact ⟨hb.1, hb.2.1, hb.2.2.1, hb.2.2.2⟩
  · -- manual click-add path
    intro ctx s x hwf hinv hold rec hrec
    rw [addPeakViaClick] at hrec
    by_cases hmem : argminAbs ctx.time x ∈ s.peaks.getD []
    · rw [if_pos hmem] at hrec
      exact hold rec hrec
    · rw [if_neg hmem] at hrec
      simp only [Option.getD_some] at hrec
      obtain ⟨hpair, hchain, halign, hrange⟩ := hinv
      have htne : ctx.time ≠ [] := by
        intro hc
        have h2 := hwf.2
        rw [hc] at h2
        simp at h2
      have hclick := argminAbs_range htne x
      have hclickL : argminAbs ctx.time x < (ctx.series.length : Int) := by
        have := hclick.2
        rw [hwf.1]
        exact this
      have hlen : ((s.props.getD []) ++
            [(⟨argminAbs ctx.time x, qget ctx.series (argminAbs ctx.time x),
              max 0 (argminAbs ctx.time x - 20),
              min ((ctx.series.length : Int) - 1) (argminAbs ctx.time x + 20),
              qget ctx.series (argminAbs ctx.time x) - 1, 10, none⟩ : PropRec)]).length =
          ((s.peaks.getD []) ++ [argminAbs ctx.time x]).length := by
        have := congrArg List.length halign
        rw [List.length_map] at this
        simp [this]
      have hmem2 := mem_argsort_map_getD hlen hrec
      rcases List.mem_append.mp hmem2 with h1 | h2
      · exact hold rec h1
      · rw [List.mem_singleton.mp h2]
        have h0 := hclick.1
        refine ⟨?_, ?_, ?_, ?_, ?_, ?_⟩ <;>
          simp only [PropRec.left_base, PropRec.right_base, PropRec.peak_idx] <;> omega
  · -- full-channel boundary recomputation path
    intro ctx s pk hpk hne hrange rec hrec
    have hempty : pk.isEmpty = false := by
      simpa [List.isEmpty_iff] using hne
    simp only [rebuildPeakProperties, hpk, hempty, Bool.false_eq_true, if_false,
      Option.getD_some] at hrec
    rcases List.mem_map.mp hrec with ⟨pb, hpb, hbuild⟩
    have hp1 : pb.1 ∈ (argsort pk).map (iget pk) := (List.of_mem_zip hpb).1
    have hp2 : pb.1 ∈ pk := ((argsort_map_perm pk).mem_iff).mp hp1
    obtain ⟨hq0, hqL⟩ := hrange pb.1 hp2
    have hb := @buildSingle_bounds ctx.series pb.1 pb.2.1 pb.2.2 hq0 hqL
    rw [hbuild] at hb
    have hpeak : rec.peak_idx = pb.1 := by
      rw [← hbuild, buildSingle_peak_idx]
    refine ⟨hb.1, ?_, ?_, hb.2.2.2.2.2, ?_, ?_⟩
    · rw [hpeak]; exact hb.2.1
    · rw [hpeak]; exact hb.2.2.2.1
    · rw [hpeak]; exact hb.2.2.1
    · rw [hpeak]; exact hb.2.2.2.2.1

/-- C1 witness: the guarantees at concrete inputs — a detection run on the
scenario trace, a click-add at minute 8, and a rebuild of the single peak 8. -/
theorem claim_C1_witness :
    ((∀ rec ∈ (detectPeaks wCtx wCtx wStore wFields wFields wOracle wOracle).rhod.props.getD [],
        RecBoundsDetect (wCtx.series.length : Int) rec) ∧
      (∀ rec ∈ (detectPeaks wCtx wCtx wStore wFields wFields wOracle wOracle).fret.props.getD [],
        RecBoundsDetect (wCtx.series.length : Int) rec)) ∧
    (∀ rec ∈ (addPeakViaClick wCtx emptyChannel 8).props.getD [],
        RecBoundsEdge (wCtx.series.length : Int) rec) ∧
    (∀ rec ∈ (rebuildPeakProperties wCtx ⟨some [8], some [], none⟩).props.getD [],
        RecBoundsEdge (wCtx.series.length : Int) rec) :=
  ⟨claim_C1.1 wCtx wCtx wStore wFields wFields wOracle wOracle ⟨1, 0, 2, 1⟩ ⟨1, 0, 2, 1⟩
      (by decide) (by decide) (by decide) (by decide),
    claim_C1.2.1 wCtx emptyChannel 8 (by decide) (by decide) (by decide),
    claim_C1.2.2 wCtx ⟨some [8], some [], none⟩ [8] rfl (by decide) (by decide)⟩

/-- C1 counterexample: a manual click-add at the first time sample stores the
record `{peak_idx := 0, left_base := 0, ...}`, so the claimed strict chain
`0 ≤ left_base < peak_idx < right_base ≤ length-1` is violated after a manual
click-add. -/
theorem claim_C1_counterexample :
    ((addPeakViaClick wCtx emptyChannel 0).props.getD []).map
        (fun r => (r.peak_idx, r.left_base)) = [(0, 0)] ∧
    ¬ ∀ rec ∈ (addPeakViaClick wCtx emptyChannel 0).props.getD [],
        0 ≤ rec.left_base ∧ rec.left_base < rec.peak_idx ∧
          rec.peak_idx < rec.right_base ∧
          rec.right_base ≤ (wCtx.series.length : Int) - 1 := by
  decide

/-- C2: for a loaded channel/reading, any sequence of click-add, delete and
move edits keeps the reading's peak/property entries paired, the peak index
array strictly ascending (hence duplicate-free), the property list
positionally aligned with it (`property[k]` describes the `k`-th peak in
sorted order), and all indices in range. -/
theorem claim_C2 (ctx : Ctx) (s : ChannelState) (ops : List EditOp)
    (hwf : Ctx.wf ctx) (hinv : StoreInv ctx s) :
    StoreInv ctx (runOps ctx s ops) := by
  revert hinv
  induction ops generalizing s with
  | nil => intro hinv; exact hinv
  | cons op rest ih =>
      intro hinv
      refine ih (stepOp ctx s op) ?_
      cases op with
      | add x => exact storeInv_add hwf hinv
      | del peak => exact storeInv_delete hinv
      | move old x => exact storeInv_move hwf hinv

/-- C2 witness: two click-adds, a move and a delete on the scenario trace,
starting from an empty reading. -/
theorem claim_C2_witness :
    StoreInv wCtx (runOps wCtx emptyChannel
      [EditOp.add 8, EditOp.add 3, EditOp.move 3 5, EditOp.del 8]) :=
  claim_C2 wCtx emptyChannel _ (by decide) (by decide)

/-- C3: peak pairing is a deterministic pure function of the two metric lists
which equals the specification's algorithm (sort both lists by time ascending;
for each calcium peak in time order pick the unused sensor peak of strictly
greater time with minimum delay, ties to the first-encountered sensor peak in
ascending time order; unpaired calcium peaks emit nothing); every emitted
pairing has `delay = sensor_time - calcium_time > 0`, and each sensor peak
appears in at most one pairing. -/
theorem claim_C3 (time : List ℚ) (rhod fret : List Int) :
    matchPeakPairs time rhod fret = pairSpec time rhod fret ∧
    (∀ pr ∈ matchPeakPairs time rhod fret,
      pr.delay = timeAt time pr.fret - timeAt time pr.rhod ∧ 0 < pr.delay) ∧
    ((matchPeakPairs time rhod fret).map (fun pr => pr.fret)).Nodup := by
  refine ⟨?_, ?_, ?_⟩
  · rw [matchPeakPairs, pairSpec]
    by_cases he : rhod.isEmpty ∨ fret.isEmpty
    · rw [if_pos he, if_pos he]
    · rw [if_neg he, if_neg he]
      exact congrArg Prod.snd
        (matchFold_eq_specFold time (sortByTime time fret) (sortByTime time rhod) ([], []))
  · intro pr hpr
    rw [matchPeakPairs] at hpr
    by_cases he : rhod.isEmpty ∨ fret.isEmpty
    · rw [if_pos he] at hpr
      simp at hpr
    · rw [if_neg he] at hpr
      exact (matchFold_invariant time (sortByTime time fret) (sortByTime time rhod)
        ([], []) rfl (by simp) (by simp)).2.2 pr hpr
  · rw [matchPeakPairs]
    by_cases he : rhod.isEmpty ∨ fret.isEmpty
    · rw [if_pos he]
      simp
    · rw [if_neg he]
      have h := matchFold_invariant time (sortByTime time fret) (sortByTime time rhod)
        ([], []) rfl (by simp) (by simp)
      rw [h.1]
      exact h.2.1

/-- Helper for C4: the source reconciliation step equals the amended claim's
selection/clamp/enforcement pipeline. -/
theorem reconcile_eq_spec (L : Int) (prevP nextP : Option Int) (p : Int)
    (wb vb rb : Option (Int × Int)) :
    reconcileBoundary L prevP nextP p wb vb rb = reconcileSpec L prevP nextP p wb vb rb := by
  rcases wb with _ | w <;> rcases vb with _ | v <;> rcases rb with _ | r <;>
    rcases prevP with _ | pv <;> rcases nextP with _ | nx <;> rfl

/-- C4 (amended).  For each peak, hybrid boundary reconciliation selects the
Width-estimator bounds when available, else the Valley-estimator bounds, else
the prior/scipy bounds, else `peak_idx ± 1`; it clips the selection into the
trace, clamps the left bound to at most `prev_peak + max(1,
⌊(peak_idx-prev_peak)/2⌋)` and at least `prev_peak+1`, the right bound to at
most `peak_idx + max(1, ⌊(next_peak-peak_idx)/2⌋)` and at most
`next_peak - 1`, clamps the last peak's right bound to at most
`max(0, length - tail_margin)` with `tail_margin = max(5, ⌈0.02*length⌉)`
(not `length - 1 - ⌈0.02*length⌉` as originally claimed), and then corrects a
left bound at or past the peak to `max(peak_idx-1, 0)`, a right bound at or
before the peak to `min(peak_idx+1, tail_guard)`, and a right bound at or
before the left one to `min(length-1, left+1)`. -/
theorem claim_C4 (series : List ℚ) (peaks : List Int) (refs : List PropRec)
    (wbs : List (Option (Int × Int))) (i : Nat) (hi : i < peaks.length) :
    (selectHybridBoundaries series peaks refs wbs).getD i (0, 0) =
      reconcileSpec (series.length : Int)
        (if i > 0 then some (iget peaks (i - 1)) else none)
        (if i < peaks.length - 1 then some (iget peaks (i + 1)) else none)
        (iget peaks i) (wbs.getD i none)
        ((derivePeakBoundaries series peaks).get? i)
        ((refs.get? i).map (fun pr => (pr.left_base, pr.right_base))) :=
  (selectHybrid_getD hi).trans (reconcile_eq_spec _ _ _ _ _ _ _)

/-- C4 witness: the reconciliation pipeline at the scenario trace's single
peak, with no width estimates and no reference records. -/
theorem claim_C4_witness :
    (selectHybridBoundaries wSeries [8] [] []).getD 0 (0, 0) =
      reconcileSpec (wSeries.length : Int)
        (if 0 > 0 then some (iget [8] (0 - 1)) else none)
        (if 0 < List.length [(8 : Int)] - 1 then some (iget [8] (0 + 1)) else none)
        (iget [8] 0) (List.getD [] 0 none)
        ((derivePeakBoundaries wSeries [8]).get? 0)
        ((List.get? ([] : List PropRec) 0).map (fun pr => (pr.left_base, pr.right_base))) :=
  claim_C4 wSeries [8] [] [] 0 (by decide)

set_option maxRecDepth 20000 in
/-- C4 counterexample: on a 300-sample trace with a single peak at index 100
and an available width estimate `(90, 299)`, the stored right bound is 294 —
the code clamps to `length - max(5, ceil(0.02*length)) = 294`, exceeding the
originally claimed clamp `length - 1 - ceil(0.02*length) = 293`. -/
theorem claim_C4_counterexample :
    selectHybridBoundaries cSeries [100] [] [some (90, 299)] = [(90, 294)] ∧
    ¬ (294 : Int) ≤ (cSeries.length : Int) - 1 - ((cSeries.length : Int) + 49) / 50 := by
  constructor
  · decide
  · decide

end Camk
